import Mathlib

/-!
Shallow embedding of the PDF collator's core (src/PDF_collator.py): filename
validation (`name_check`), range expansion (`get_ranges`), CoC lookup
(`find_coc`), back-checking (`backcheck`) and the stack-draining
reconciliation loop (`aggregator`).

Python strings are modelled as `List Char` (`Str`), Python sets as `Finset`,
Python dicts as insertion-ordered association lists, Python `int(...)` on a
digit string as `valDigits`, Python `str(...)` on a natural as `natRepr`.
Exceptions raised by `list.remove` are modelled by `Option` (`none` = the
run aborts with `ValueError`); the unbounded recursion of `aggregator` is
modelled with an explicit fuel parameter.
-/

/-- Python strings, modelled as lists of characters. -/
abbrev Str := List Char

/-- Numeric value of one decimal digit character. -/
def digitVal (c : Char) : Nat := c.toNat - 48

/-- Python `int(s)` applied to a string of decimal digits. -/
def valDigits (s : Str) : Nat := s.foldl (fun a c => 10 * a + digitVal c) 0

/-- Decimal digit character for `n < 10`. -/
def digitChar (n : Nat) : Char := Char.ofNat (n + 48)

/-- Fueled decimal rendering; `fuel > n` suffices. -/
def natReprAux : Nat → Nat → List Char
  | 0, _ => []
  | fuel + 1, n =>
    if n < 10 then [digitChar n]
    else natReprAux fuel (n / 10) ++ [digitChar (n % 10)]

/-- Python `str(n)` for a non-negative integer: decimal, no padding. -/
def natRepr (n : Nat) : Str := natReprAux (n + 1) n

/-- The regex character class `\d` (ASCII decimal digits, code points
48-57). -/
def isDigitCh (c : Char) : Bool := 48 ≤ c.toNat && c.toNat ≤ 57

/-- Python `s.isnumeric()` restricted to ASCII digit strings (the only ones
that occur in this program). -/
def isNumericStr (s : Str) : Bool := !s.isEmpty && s.all isDigitCh

/-- Test for the rerun letters `a`-`d` of the CoC grammar character class. -/
def isRerun (c : Char) : Bool := c == 'a' || c == 'b' || c == 'c' || c == 'd'

/-- All characters are decimal digits. -/
def allDigits (s : Str) : Bool := s.all isDigitCh

/-- The two-letter prefixes `QC`, `WP`, `SP` of the special-sample grammar. -/
def qcPair (q w : Char) : Bool :=
  (q == 'Q' && w == 'C') || (q == 'W' && w == 'P') || (q == 'S' && w == 'P')

/-- The literal suffix `coc.pdf` (7 characters, like `pg1.pdf`). -/
def cocSuffix : Str := ['c', 'o', 'c', '.', 'p', 'd', 'f']

/-- Decomposition of a CoC filename under the validation regex
`([\d]{3}([\d]{2,3}... )` of `name_check`:
`\d{3}(\d{3})([a-d])?(-(\d{3})(\3)?)?coc\.pdf` or
`(QC|WP|SP)\d{3}-\d{3}coc\.pdf` (full match). `d6` is the six-digit start,
`lett` the optional rerun letter, `e3` the literal three-digit end and
`endLett` records whether the optional back-reference `(\3)?` matched. -/
inductive CocForm where
  | qc : CocForm
  | single : (d6 : Str) → (lett : Option Char) → CocForm
  | range : (d6 : Str) → (lett : Option Char) → (e3 : Str) → (endLett : Bool) → CocForm
deriving DecidableEq

/-- Matcher for the part of the CoC regex before the `coc.pdf` suffix.
The alternatives have pairwise distinct lengths (6, 7, 10, 11, 12 for the
numeric forms, 9 for the QC/WP/SP form), so dispatch on list arity is
faithful to the regex with backtracking.  In particular the end letter of a
range is matched by the *optional* group `(\3)?`: a start letter with no end
letter (length 11) is accepted, an end letter that differs from the start's
or appears without one is not (the back-reference fails, and the letter then
cannot be part of `coc\.pdf`). -/
def parseCocCore : Str → Option CocForm
  | [a, b, c, d, e, f] =>
    if allDigits [a, b, c, d, e, f] then some (.single [a, b, c, d, e, f] none) else none
  | [a, b, c, d, e, f, g] =>
    if allDigits [a, b, c, d, e, f] && isRerun g then
      some (.single [a, b, c, d, e, f] (some g)) else none
  | [q, w, a, b, c, h, x, y, z] =>
    if qcPair q w && allDigits [a, b, c] && h == '-' && allDigits [x, y, z] then
      some .qc else none
  | [a, b, c, d, e, f, h, x, y, z] =>
    if allDigits [a, b, c, d, e, f] && h == '-' && allDigits [x, y, z] then
      some (.range [a, b, c, d, e, f] none [x, y, z] false) else none
  | [a, b, c, d, e, f, g, h, x, y, z] =>
    if allDigits [a, b, c, d, e, f] && isRerun g && h == '-' && allDigits [x, y, z] then
      some (.range [a, b, c, d, e, f] (some g) [x, y, z] false) else none
  | [a, b, c, d, e, f, g, h, x, y, z, k] =>
    if allDigits [a, b, c, d, e, f] && isRerun g && h == '-' && allDigits [x, y, z] && k == g then
      some (.range [a, b, c, d, e, f] (some g) [x, y, z] true) else none
  | _ => none

/-- Full match of a filename against `coc_RE` (`coc_RE.fullmatch(i)` in
`name_check`): the literal `coc\.pdf` necessarily matches the last seven
characters, the rest is matched by `parseCocCore`. -/
def parseCoc (s : Str) : Option CocForm :=
  if 7 ≤ s.length && s.drop (s.length - 7) == cocSuffix then
    parseCocCore (s.take (s.length - 7))
  else none

/-- The semantic test `name_check` applies to a matched numeric range:
`diff = abs(last - first)` over the integers; bad when `diff == 0` or when
`last < first and diff < 100`. -/
def range_check_bad (first last : Nat) : Bool :=
  let diff : Nat := ((last : Int) - (first : Int)).natAbs
  decide (diff = 0) || (decide ((last : Int) < (first : Int)) && decide (diff < 100))

/-- Body of the `for i in coc_list` loop of `name_check`: `true` iff `i` is
appended to `bad_names`.  QC/WP/SP matches are skipped before the range
check; for a numeric match, `'-' in i` holds exactly for the range form.
`first` is `int(match.group(2))` — the *trailing* three digits of the
six-digit start — and `last` is `int(match.group(5))`. -/
def name_check_bad (i : Str) : Bool :=
  match parseCoc i with
  | none => true
  | some .qc => false
  | some (.single _ _) => false
  | some (.range d6 _ e3 _) =>
    range_check_bad (valDigits (d6.drop 3)) (valDigits e3)

/-- The function `name_check`, applied to the concatenated (already
`.DS_Store`-free) directory listings: returns the list of bad names (`none`
when the check passes) together with the full CoC list. -/
def name_check (coc_list : List Str) : Option (List Str) × List Str :=
  let bad_names := coc_list.filter name_check_bad
  (if bad_names = [] then none else some bad_names, coc_list)

/-- The page-name regex `name_RE` of `strip_chars`, as a full match:
`\d{6}pg[0-9]\.pdf` or `(QC|WP|SP)\d{3}-\d{3}pg[0-9]\.pdf`
(the alternatives have distinct lengths 13 and 16). -/
def page_name_ok : Str → Bool
  | [a, b, c, d, e, f, p, g, n, h, x, y, z] =>
    allDigits [a, b, c, d, e, f] && p == 'p' && g == 'g' && isDigitCh n &&
      h == '.' && x == 'p' && y == 'd' && z == 'f'
  | [q, w, a, b, c, m, d, e, f, p, g, n, h, x, y, z] =>
    qcPair q w && allDigits [a, b, c] && m == '-' && allDigits [d, e, f] &&
      p == 'p' && g == 'g' && isDigitCh n && h == '.' && x == 'p' && y == 'd' && z == 'f'
  | _ => false

/-- Python `range(a, b)` as a list. -/
def pyRange (a b : Nat) : List Nat := List.range' a (b - a)

/-- The function `get_ranges`, with its Python `set` result represented by
a duplicate-free list in a fixed iteration order (Python's in-process set
iteration order is arbitrary but fixed; every use is order-insensitive up to
the final `sort`).  `r = coc_name[:-7]`; QC/WP/SP and single names return
`{r}`.  For a range, `first, last = r.split('-')` is modelled by splitting
at the first dash (validated numeric range names contain exactly one dash;
on other inputs Python would raise `ValueError` from the two-name
unpacking, which never happens in a validated run).  The numeric branch
computes `int`s and a `range`, correcting a 1000s rollover; the rerun
branch strips the rerun letter from both ends before the same arithmetic
and re-appends it to every member. -/
def get_ranges_list (coc_name : Str) : List Str :=
  let r := coc_name.take (coc_name.length - 7)
  if ['Q', 'C'].isPrefixOf r || ['W', 'P'].isPrefixOf r || ['S', 'P'].isPrefixOf r then
    [r]
  else if '-' ∈ r then
    let first := r.takeWhile (fun c => c != '-')
    let last0 := (r.dropWhile (fun c => c != '-')).tail
    let last := first.take 3 ++ last0
    if isNumericStr first then
      let f := valDigits first
      let l := valDigits last + 1
      let l := if l < f then l + 1000 else l
      ((pyRange f l).map natRepr).dedup
    else
      let rerun := first.drop (first.length - 1)
      let f := valDigits first.dropLast
      let l := valDigits last.dropLast + 1
      let l := if l < f then l + 1000 else l
      ((pyRange f l).map (fun x => natRepr x ++ rerun)).dedup
  else
    [r]

/-- The value of `get_ranges` as a set (what the claims quantify over). -/
def get_ranges (coc_name : Str) : Finset Str := (get_ranges_list coc_name).toFinset

/-- The set of present pdf prefixes built inside `backcheck`:
`{f[:-7] for f in pdf_stack}`. -/
def file_set (pdf_stack : List Str) : Finset Str :=
  (pdf_stack.map (fun f => f.take (f.length - 7))).toFinset

/-- The function `backcheck`: returns `required_pdfs` (as a list, Python's
`list(required_pdfs)`) and `missing_pdfs` (`none` when every required id is
present among the stripped stack entries; otherwise
`list(required_pdfs.difference(file_set))`). -/
def backcheck (coc_name : Str) (pdf_stack : List Str) : List Str × Option (List Str) :=
  let required_pdfs := get_ranges_list coc_name
  if get_ranges coc_name ⊆ file_set pdf_stack then
    (required_pdfs, none)
  else
    (required_pdfs, some (required_pdfs.filter (fun x => x ∉ file_set pdf_stack)))

/-- The module-level CoC directory constants `AUS_COCS`, `CORP_COCS`,
`PT_COCS` (all `''` in the shipped source; kept abstract since `find_coc`
only ever joins them). -/
structure Dirs where
  aus : Str
  corp : Str
  pt : Str

/-- The argument `coc_tuple = (A_set, C_set, P_set)` of `find_coc`. -/
structure CocTuple where
  A : Finset Str
  C : Finset Str
  P : Finset Str

/-- Python `os.path.join(d, name)` for the joins occurring in `find_coc`
(`name` is a filename, never absolute). -/
def path_join (d name : Str) : Str :=
  if d = [] then name
  else if d.getLast? = some '/' then d ++ name
  else d ++ '/' :: name

/-- Python `os.path.basename`: everything after the last `/`. -/
def basename (p : Str) : Str :=
  p.foldl (fun acc c => if c = '/' then [] else acc ++ [c]) []

/-- The function `find_coc`: `pattern = pdf_name[:-7]`, scan `coc_list` for
the first name starting with `pattern`, and return its path according to
which collection set contains it — the PT path is the unchecked fallback. -/
def find_coc (dirs : Dirs) (coc_list : List Str) (coc_tuple : CocTuple) (pdf_name : Str) :
    Option Str :=
  let pattern := pdf_name.take (pdf_name.length - 7)
  match coc_list.find? (fun i => pattern.isPrefixOf i) with
  | some i =>
    some (if i ∈ coc_tuple.A then path_join dirs.aus i
          else if i ∈ coc_tuple.C then path_join dirs.corp i
          else path_join dirs.pt i)
  | none => none

/-- Python `coc_name.replace('coc', '')`: remove every (non-overlapping,
leftmost-first) occurrence of `coc`. -/
def remove_coc : Str → Str
  | 'c' :: 'o' :: 'c' :: rest => remove_coc rest
  | c :: rest => c :: remove_coc rest
  | [] => []

/-- One report entry of `report_dict`:
`{'coc': ..., 'pdfs': ..., 'missing_pdfs': ...}`. -/
structure Bundle where
  coc : Str
  pdfs : List Str
  missing_pdfs : Option (List Str)
deriving DecidableEq

/-- Python dict as an insertion-ordered association list. -/
abbrev ReportDict := List (Str × Bundle)

/-- Python `d[k] = v`: update in place when the key exists (its position is
kept), append otherwise. -/
def dictInsert (k : Str) (v : Bundle) (d : ReportDict) : ReportDict :=
  if k ∈ d.map Prod.fst then d.map (fun p => if p.1 = k then (k, v) else p)
  else d ++ [(k, v)]

/-- Python `s.sort()` on a list of strings: lexicographic by character code.
`strLeB` is the boolean comparison. -/
def strLeB : Str → Str → Bool
  | [], _ => true
  | _ :: _, [] => false
  | a :: as, b :: bs =>
    if a.toNat < b.toNat then true
    else if a.toNat = b.toNat then strLeB as bs
    else false

/-- Propositional form of `strLeB`. -/
def strLe (a b : Str) : Prop := strLeB a b = true

instance : DecidableRel strLe := fun a b => inferInstanceAs (Decidable (strLeB a b = true))

instance : IsTotal Str strLe :=
  ⟨by
    intro a
    induction a with
    | nil => intro b; exact Or.inl rfl
    | cons x xs ih =>
      intro b
      cases b with
      | nil => exact Or.inr rfl
      | cons y ys =>
        rcases Nat.lt_trichotomy x.toNat y.toNat with hlt | heq | hgt
        · refine Or.inl ?_
          show strLeB (x :: xs) (y :: ys) = true
          simp [strLeB, hlt]
        · rcases ih ys with h | h
          · refine Or.inl ?_
            show strLeB (x :: xs) (y :: ys) = true
            have h2 : strLeB xs ys = true := h
            simp [strLeB, heq, h2]
          · refine Or.inr ?_
            show strLeB (y :: ys) (x :: xs) = true
            have h2 : strLeB ys xs = true := h
            simp [strLeB, heq.symm, h2]
        · refine Or.inr ?_
          show strLeB (y :: ys) (x :: xs) = true
          simp [strLeB, hgt]⟩

instance : IsTrans Str strLe :=
  ⟨by
    intro a
    induction a with
    | nil => intro b c _ _; exact rfl
    | cons x xs ih =>
      intro b c hab hbc
      cases b with
      | nil => exact nomatch (hab : (false : Bool) = true)
      | cons y ys =>
        cases c with
        | nil => exact nomatch (hbc : (false : Bool) = true)
        | cons z zs =>
          have hab2 : strLeB (x :: xs) (y :: ys) = true := hab
          have hbc2 : strLeB (y :: ys) (z :: zs) = true := hbc
          show strLeB (x :: xs) (z :: zs) = true
          simp only [strLeB] at hab2 hbc2 ⊢
          split_ifs at hab2 hbc2 ⊢ <;>
            first
            | rfl
            | omega
            | exact ih ys zs hab2 hbc2
            | exact absurd hab2 (by simp)
            | exact absurd hbc2 (by simp)⟩

/-- Python `list.remove(f)` when `f` is present: delete the first
occurrence. -/
def removeFirst : List Str → Str → List Str
  | [], _ => []
  | x :: xs, f => if x = f then xs else x :: removeFirst xs f

/-- The sequence of `pdf_stack.remove(f)` calls of `aggregator`: remove the
first occurrence of each element in turn; `none` models the `ValueError`
Python raises when an element is absent. -/
def removeAll : List Str → List Str → Option (List Str)
  | st, [] => some st
  | st, f :: fs => if f ∈ st then removeAll (removeFirst st f) fs else none

/-- The mutable state threaded through `aggregator`'s recursion:
`missing_coc_list`, `pdf_stack` and `report_dict`. -/
structure AggState where
  missing : List Str
  stack : List Str
  report : ReportDict
deriving DecidableEq

/-- What one iteration of `aggregator`'s `while` loop does besides shrinking
the stack: either push the popped page onto `missing_coc_list` or write a
bundle into `report_dict`. -/
inductive StepEffect where
  | toMissing : (p : Str) → StepEffect
  | toReport : (report_name : Str) → (b : Bundle) → StepEffect
deriving DecidableEq

/-- One iteration of `aggregator`'s loop, as a function of the pdf stack
alone (the new stack depends only on the old stack, `coc_list` and
`coc_tuple`; `missing_coc_list` and `report_dict` feed nothing back).
Returns the new stack and the effect; `none` models the `ValueError` raised
by `pdf_stack.remove` on a duplicated match.  The `[]` case is never reached
(the loop guard is `pdf_stack != []`). -/
def agg_step (dirs : Dirs) (coc_list : List Str) (coc_tuple : CocTuple) :
    List Str → Option (List Str × StepEffect)
  | [] => none
  | p :: t =>
    match find_coc dirs coc_list coc_tuple p with
    | none => some (t, .toMissing p)
    | some coc =>
      let coc_name := basename coc
      let report_name := remove_coc coc_name
      let bc := backcheck coc_name (p :: t)
      let matched_pdfs :=
        bc.1.flatMap (fun j => (p :: t).filter (fun k => j.isPrefixOf k))
      match removeAll (p :: t) matched_pdfs with
      | none => none
      | some st' =>
        some (st', .toReport report_name
          ⟨coc, List.insertionSort strLe matched_pdfs, bc.2⟩)

/-- Apply a step effect to the accumulators. -/
def applyEffect (s : AggState) (st' : List Str) : StepEffect → AggState
  | .toMissing p => ⟨s.missing ++ [p], st', s.report⟩
  | .toReport k b => ⟨s.missing, st', dictInsert k b s.report⟩

/-- Result of a fueled run of `aggregator`: `done` is Python's
`return missing_coc_list, report_dict`, `outOfFuel` means the fuel budget
was exhausted with a non-empty stack, `error` an uncaught `ValueError`. -/
inductive AggResult where
  | done : AggState → AggResult
  | outOfFuel : AggState → AggResult
  | error : AggResult
deriving DecidableEq

/-- Whether a run returned. -/
def AggResult.isDone : AggResult → Bool
  | .done _ => true
  | _ => false

/-- The function `aggregator`.  Its `while pdf_stack != []` loop with a tail
recursive self-call is semantically iteration of `agg_step` until the stack
empties; the fuel parameter makes the possibly non-terminating recursion a
total function. -/
def aggregator (dirs : Dirs) (coc_list : List Str) (coc_tuple : CocTuple) :
    Nat → AggState → AggResult
  | 0, s => if s.stack = [] then .done s else .outOfFuel s
  | fuel + 1, s =>
    if s.stack = [] then .done s
    else
      match agg_step dirs coc_list coc_tuple s.stack with
      | none => .error
      | some (st', eff) => aggregator dirs coc_list coc_tuple fuel (applyEffect s st' eff)


/-! ### Concrete filenames used by counterexamples and witnesses -/

/-- The single-rerun CoC name `123456acoc.pdf` (a format the source header
lists as supported). -/
def coc_rerun : Str := ['1', '2', '3', '4', '5', '6', 'a', 'c', 'o', 'c', '.', 'p', 'd', 'f']

/-- The page name `123456pg1.pdf`. -/
def pg_123456 : Str := ['1', '2', '3', '4', '5', '6', 'p', 'g', '1', '.', 'p', 'd', 'f']

/-- The single CoC name `123456coc.pdf`. -/
def coc_single6 : Str := ['1', '2', '3', '4', '5', '6', 'c', 'o', 'c', '.', 'p', 'd', 'f']

/-- The mixed-marker range CoC name `123456a-458coc.pdf` (rerun letter on
the start only). -/
def coc_mixed : Str :=
  ['1', '2', '3', '4', '5', '6', 'a', '-', '4', '5', '8', 'c', 'o', 'c', '.', 'p', 'd', 'f']

/-- The decrementing range CoC name `400990-960coc.pdf` (the example from
the source's own comment). -/
def coc_decr : Str :=
  ['4', '0', '0', '9', '9', '0', '-', '9', '6', '0', 'c', 'o', 'c', '.', 'p', 'd', 'f']

/-- The range CoC name `123450-452coc.pdf`. -/
def coc_range450 : Str :=
  ['1', '2', '3', '4', '5', '0', '-', '4', '5', '2', 'c', 'o', 'c', '.', 'p', 'd', 'f']

/-- The page name `123450pg1.pdf`. -/
def pg_123450 : Str := ['1', '2', '3', '4', '5', '0', 'p', 'g', '1', '.', 'p', 'd', 'f']

/-- The page name `123452pg1.pdf`. -/
def pg_123452 : Str := ['1', '2', '3', '4', '5', '2', 'p', 'g', '1', '.', 'p', 'd', 'f']

/-- The leading-zero range CoC name `000001-020coc.pdf` (accepted by
`name_check`; its expanded ids `1`, ..., `20` are shorter than six digits). -/
def coc_zeros : Str :=
  ['0', '0', '0', '0', '0', '1', '-', '0', '2', '0', 'c', 'o', 'c', '.', 'p', 'd', 'f']

/-- The page name `000001pg1.pdf`. -/
def pg_000001 : Str := ['0', '0', '0', '0', '0', '1', 'p', 'g', '1', '.', 'p', 'd', 'f']

/-- The page name `210000pg1.pdf`. -/
def pg_210000 : Str := ['2', '1', '0', '0', '0', '0', 'p', 'g', '1', '.', 'p', 'd', 'f']

/-- The directory constants as shipped (`AUS_COCS = CORP_COCS = PT_COCS =
''`). -/
def dirs0 : Dirs := ⟨[], [], []⟩

/-- An empty collection tuple. -/
def tup0 : CocTuple := ⟨∅, ∅, ∅⟩

/-- Projection of the emitted bundle's pdf list out of one step result. -/
def stepBundlePdfs : Option (List Str × StepEffect) → Option (List Str)
  | some (_, .toReport _ b) => some b.pdfs
  | _ => none

/-- Claim C4's invalidity condition, modelled from the spec's words with
`first` read literally as the *leading* three digits of the six-digit start
(`name_check` instead uses `match.group(2)`, the trailing three). -/
def claim_c4_condition (first last : Nat) : Bool :=
  decide (((last : Int) - (first : Int)).natAbs = 0) ||
    (decide ((last : Int) < (first : Int)) &&
      decide ((((last : Int) - (first : Int)).natAbs) < 100))

/-- The rerun letter re-appended to every member of a rerun range. -/
def lettList : Option Char → Str
  | some l => [l]
  | none => []

/-- The total multiset of pages stored in the report dictionary. -/
def reportPages (d : ReportDict) : Multiset Str :=
  (d.map (fun kv => (kv.2.pdfs : Multiset Str))).sum

/-- The invariant of the reconciliation loop (for a `name_check`-validated
CoC list and an initially duplicate-free stack): the stack stays
duplicate-free, stack + unresolved + stored bundle pages form exactly the
original page multiset, and every stored report entry's CoC has no remaining
stack page matching its required ids. -/
def AggInv (cocl stack₀ : List Str) (s : AggState) : Prop :=
  s.stack.Nodup ∧
  (s.stack : Multiset Str) + (s.missing : Multiset Str) + reportPages s.report =
    (stack₀ : Multiset Str) ∧
  ∀ kv ∈ s.report, ∃ i ∈ cocl, kv.1 = remove_coc i ∧
    ∀ q ∈ s.stack, ∀ j ∈ get_ranges i, ¬ (j.isPrefixOf q = true)

/-- The sequence of `report_dict[k] = v` writes a run performs, replayed onto
an arbitrary starting dictionary. -/
def seqApply (d : ReportDict) (σ : List (Str × Bundle)) : ReportDict :=
  σ.foldl (fun d kv => dictInsert kv.1 kv.2 d) d

/-- Python `d[k]`: the value at the first (hence only) entry with key `k`. -/
def dictFind (k : Str) : ReportDict → Option Bundle
  | [] => none
  | p :: d => if p.1 = k then some p.2 else dictFind k d

/-- The value of the last write to key `k` in a write sequence, if any. -/
def lastVal (k : Str) : List (Str × Bundle) → Option Bundle
  | [] => none
  | kv :: σ =>
    match lastVal k σ with
    | some v => some v
    | none => if kv.1 = k then some kv.2 else none


/-! ### Decimal rendering and digit-string arithmetic -/

theorem valDigits_from (l : Str) :
    ∀ a, l.foldl (fun a c => 10 * a + digitVal c) a = a * 10 ^ l.length + valDigits l := by
  induction l with
  | nil => intro a; simp [valDigits]
  | cons c l ih =>
    intro a
    have h1 : valDigits (c :: l) = digitVal c * 10 ^ l.length + valDigits l := by
      show List.foldl _ (10 * 0 + digitVal c) l = _
      rw [ih]; ring_nf
    show List.foldl _ (10 * a + digitVal c) l = _
    rw [ih, h1]
    simp only [List.length_cons, pow_succ]
    ring

theorem valDigits_cons (c : Char) (l : Str) :
    valDigits (c :: l) = digitVal c * 10 ^ l.length + valDigits l := by
  show List.foldl _ (10 * 0 + digitVal c) l = _
  rw [valDigits_from]; ring_nf

theorem valDigits_append (xs ys : Str) :
    valDigits (xs ++ ys) = valDigits xs * 10 ^ ys.length + valDigits ys := by
  unfold valDigits
  rw [List.foldl_append, valDigits_from]
  rfl

theorem digitVal_lt_of_digit {c : Char} (h : isDigitCh c = true) : digitVal c < 10 := by
  unfold isDigitCh at h
  simp only [Bool.and_eq_true, decide_eq_true_eq] at h
  unfold digitVal
  omega

theorem valDigits_lt {s : Str} (h : allDigits s = true) : valDigits s < 10 ^ s.length := by
  induction s with
  | nil => simp [valDigits]
  | cons c l ih =>
    unfold allDigits at h ih
    simp only [List.all_cons, Bool.and_eq_true] at h
    have h1 := digitVal_lt_of_digit h.1
    have h2 := ih h.2
    rw [valDigits_cons]
    have : 10 ^ (c :: l).length = 10 * 10 ^ l.length := by
      simp [List.length_cons, pow_succ]; ring
    rw [this]
    nlinarith

theorem digitChar_toNat {n : Nat} (h : n < 10) : (digitChar n).toNat = n + 48 := by
  interval_cases n <;> decide

theorem valDigits_natReprAux : ∀ fuel n, n < fuel → valDigits (natReprAux fuel n) = n := by
  intro fuel
  induction fuel with
  | zero => intro n h; omega
  | succ fuel ih =>
    intro n h
    unfold natReprAux
    by_cases h10 : n < 10
    · simp only [h10, if_true]
      rw [valDigits_cons]
      simp [valDigits, digitVal, digitChar_toNat h10]
    · simp only [h10, if_false]
      have hdiv : n / 10 < fuel := by
        have := Nat.div_lt_self (by omega : 0 < n) (by omega : 1 < 10)
        omega
      rw [valDigits_append, ih _ hdiv]
      have : valDigits [digitChar (n % 10)] = n % 10 := by
        rw [show [digitChar (n % 10)] = digitChar (n % 10) :: [] from rfl, valDigits_cons]
        unfold digitVal
        rw [digitChar_toNat (Nat.mod_lt n (by omega))]
        simp [valDigits]
      simp only [List.length_cons, List.length_nil, this]
      simp [pow_one]
      omega

theorem valDigits_natRepr (n : Nat) : valDigits (natRepr n) = n :=
  valDigits_natReprAux (n + 1) n (Nat.lt_succ_self n)

theorem natRepr_injective : Function.Injective natRepr := by
  intro m n h
  have hm := valDigits_natRepr m
  have hn := valDigits_natRepr n
  rw [h] at hm
  omega

/-! ### Fixed-point behaviour of the reconciliation loop -/

theorem aggregator_stack_fixed (dirs : Dirs) (cocl : List Str) (tup : CocTuple)
    (st : List Str) (hne : st ≠ [])
    (hfix : (agg_step dirs cocl tup st).map Prod.fst = some st) :
    ∀ fuel (s : AggState), s.stack = st →
      (aggregator dirs cocl tup fuel s).isDone = false := by
  intro fuel
  induction fuel with
  | zero =>
    intro s hs
    unfold aggregator
    rw [hs]
    simp [hne, AggResult.isDone]
  | succ fuel ih =>
    intro s hs
    unfold aggregator
    rw [hs]
    simp only [hne, if_false]
    cases hstep : agg_step dirs cocl tup st with
    | none => rw [hstep] at hfix; simp at hfix
    | some pr =>
      obtain ⟨st2, eff⟩ := pr
      rw [hstep] at hfix
      simp at hfix
      subst hfix
      cases eff <;> exact ih _ rfl

/-- C1 (code bug): on the `name_check`-validated CoC list
`['123456acoc.pdf']` and the validated, sorted page stack
`['123456pg1.pdf']`, the reconciliation loop never terminates: `find_coc`
finds the CoC for the page, but the single required id `123456a` prefixes no
page, so the iteration removes nothing from the stack and the recursion
repeats forever — no amount of fuel makes the run return. -/
theorem aggregator_rerun_diverges :
    (name_check [coc_rerun]).1 = none ∧ page_name_ok pg_123456 = true ∧
    ∀ fuel, (aggregator dirs0 [coc_rerun] tup0 fuel ⟨[], [pg_123456], []⟩).isDone = false := by
  refine ⟨by decide, by decide, fun fuel => ?_⟩
  exact aggregator_stack_fixed dirs0 [coc_rerun] tup0 [pg_123456]
    (by decide) (by decide) fuel _ rfl

/-- C10 (confirmed): when the first CoC name starting with the page's
prefix belongs to neither the Austin set nor the Corpus set, `find_coc`
returns the PT path joined with that name — the PT set is never consulted,
so the result is never "not found". -/
theorem find_coc_pt_fallback (dirs : Dirs) (coc_list : List Str) (tup : CocTuple)
    (pdf_name i : Str)
    (hfind : coc_list.find? (fun j => (pdf_name.take (pdf_name.length - 7)).isPrefixOf j) = some i)
    (hA : i ∉ tup.A) (hC : i ∉ tup.C) :
    find_coc dirs coc_list tup pdf_name = some (path_join dirs.pt i) := by
  unfold find_coc
  simp only [hfind, hA, hC]
  simp [hA, hC]

/-- Witness for `find_coc_pt_fallback`: a CoC name in none of the three
collection sets is still located under the PT path. -/
theorem find_coc_pt_fallback_witness :
    find_coc ⟨['a'], ['c'], ['p', 't']⟩ [coc_single6] tup0 pg_123456 =
      some (path_join ['p', 't'] coc_single6) :=
  find_coc_pt_fallback ⟨['a'], ['c'], ['p', 't']⟩ [coc_single6] tup0 pg_123456 coc_single6
    (by decide) (by decide) (by decide)

/-- C9 (confirmed): when no CoC name starts with the page's prefix,
`find_coc` returns `none` (it cannot raise), and the next loop iteration
moves exactly that page from the stack to `missing_coc_list` and continues
with the remaining pages. -/
theorem find_coc_miss_unresolved (dirs : Dirs) (cocl : List Str) (tup : CocTuple)
    (p : Str) (t m : List Str) (r : ReportDict) (fuel : Nat)
    (h : ∀ i ∈ cocl, ((p.take (p.length - 7)).isPrefixOf i) = false) :
    find_coc dirs cocl tup p = none ∧
    aggregator dirs cocl tup (fuel + 1) ⟨m, p :: t, r⟩ =
      aggregator dirs cocl tup fuel ⟨m ++ [p], t, r⟩ := by
  have hf : cocl.find? (fun i => (p.take (p.length - 7)).isPrefixOf i) = none := by
    apply List.find?_eq_none.mpr
    intro x hx
    simp [h x hx]
  have hfc : find_coc dirs cocl tup p = none := by
    unfold find_coc
    simp only [hf]
  refine ⟨hfc, ?_⟩
  have hs : agg_step dirs cocl tup (p :: t) = some (t, .toMissing p) := by
    unfold agg_step
    simp only [hfc]
  simp only [aggregator]
  simp [hs, applyEffect]

/-- Witness for `find_coc_miss_unresolved` at an empty CoC list. -/
theorem find_coc_miss_unresolved_witness :
    find_coc dirs0 [] tup0 pg_123456 = none ∧
    aggregator dirs0 [] tup0 1 ⟨[], [pg_123456], []⟩ =
      aggregator dirs0 [] tup0 0 ⟨[pg_123456], [], []⟩ :=
  find_coc_miss_unresolved dirs0 [] tup0 pg_123456 [] [] [] 0 (by simp)

/-- C7 (confirmed): `backcheck` returns `missing_pdfs = none` exactly when
the required set minus the present set (stack entries with the 7-character
page suffix stripped) is empty, and otherwise the returned list is exactly
that set difference; in particular CoC `123450-452coc.pdf` against pages
`123450pg1.pdf`, `123452pg1.pdf` yields `missing_pdfs == ['123451']`. -/
theorem backcheck_missing_difference :
    (∀ coc_name pdf_stack,
      ((backcheck coc_name pdf_stack).2 = none ↔
        get_ranges coc_name \ file_set pdf_stack = ∅) ∧
      ((backcheck coc_name pdf_stack).2.getD []).toFinset =
        get_ranges coc_name \ file_set pdf_stack) ∧
    (backcheck coc_range450 [pg_123450, pg_123452]).2 =
      some [['1', '2', '3', '4', '5', '1']] := by
  refine ⟨fun coc_name pdf_stack => ?_, by decide⟩
  by_cases hsub : get_ranges coc_name ⊆ file_set pdf_stack
  · have h2 : (backcheck coc_name pdf_stack).2 = none := by
      unfold backcheck; rw [if_pos hsub]
    rw [h2, Finset.sdiff_eq_empty_iff_subset.mpr hsub]
    simp
  · have h2 : (backcheck coc_name pdf_stack).2 =
        some ((get_ranges_list coc_name).filter (fun x => x ∉ file_set pdf_stack)) := by
      unfold backcheck; rw [if_neg hsub]
    rw [h2]
    have hd : get_ranges coc_name \ file_set pdf_stack ≠ ∅ := by
      intro hcontra
      exact hsub (Finset.sdiff_eq_empty_iff_subset.mp hcontra)
    refine ⟨by simp [hd], ?_⟩
    ext x
    simp [get_ranges, Finset.mem_sdiff, List.mem_filter]

/-- C3 (counterexample): the range CoC name `123456a-458coc.pdf` (rerun
letter on the start only) passes `name_check`, yet `get_ranges` returns the
empty set — contradicting both "never empty" and the size formula. -/
theorem get_ranges_mixed_empty :
    (name_check [coc_mixed]).1 = none ∧ get_ranges coc_mixed = ∅ := by decide

/-- C4 (counterexample): on `400990-960coc.pdf` the code marks the name
Invalid (its `group(2)`/`group(5)` values 990 and 960 decrement by 30),
while the claim's extraction — `first` = the leading three digits 400,
`last` = 960 — satisfies neither rejection condition, predicting
acceptance. -/
theorem name_check_leading_digits_cx :
    name_check_bad coc_decr = true ∧
    claim_c4_condition (valDigits (coc_decr.take 3)) (valDigits ['9', '6', '0']) = false := by
  decide

/-- C5 (counterexample): with the validated CoC `000001-020coc.pdf` and the
validated pages `000001pg1.pdf`, `210000pg1.pdf`, the emission step puts
`210000pg1.pdf` into the bundle although its stripped prefix `210000` is not
a member of the required set `{'1', ..., '20'}` — pages are collected by
`startswith`, not by prefix equality. -/
theorem aggregator_matches_by_startswith_cx :
    name_check_bad coc_zeros = false ∧ page_name_ok pg_000001 = true ∧
    page_name_ok pg_210000 = true ∧
    stepBundlePdfs (agg_step dirs0 [coc_zeros] tup0 [pg_000001, pg_210000]) =
      some [pg_210000] ∧
    pg_210000.take (pg_210000.length - 7) ∉ get_ranges coc_zeros := by decide

/-- C6 (counterexample): `123456a-458coc.pdf` — a range CoC in which the
start carries a rerun letter and the end carries none — fully matches the
grammar (the end-letter back-reference is optional) and is not marked
invalid by `name_check`. -/
theorem name_check_mixed_rerun_cx :
    parseCoc coc_mixed =
      some (.range ['1', '2', '3', '4', '5', '6'] (some 'a') ['4', '5', '8'] false) ∧
    name_check_bad coc_mixed = false := by decide

/-! ### The grammar on assembled range names -/

theorem parseCoc_append (core : Str) :
    parseCoc (core ++ cocSuffix) = parseCocCore core := by
  unfold parseCoc
  have hlen : (core ++ cocSuffix).length = core.length + 7 := by simp [cocSuffix]
  have h1 : core.length + 7 - 7 = core.length := by omega
  rw [hlen, h1, List.drop_left, List.take_left]
  simp

theorem range_check_bad_iff (fv lv : Nat) :
    range_check_bad fv lv = true ↔ (lv = fv ∨ (lv < fv ∧ fv - lv < 100)) := by
  simp only [range_check_bad, Bool.or_eq_true, Bool.and_eq_true, decide_eq_true_eq]
  omega

/-- C4 (amended, confirmed): for every grammar-matching numeric range CoC
name — six digits, an optional rerun letter, a dash, three literal digits,
optionally the repeated letter — `name_check` marks the name Invalid exactly
when `diff == 0` or `last < first` with `diff < 100`, where `first` is the
value of the *trailing* three digits of the six-digit start (`group(2)` of
the regex) and `last` the literal three-digit end; all other matching range
names are accepted, so a decrement is accepted only when `diff >= 100`. -/
theorem name_check_range_rule
    (a b c d e f x y z l : Char)
    (hd : allDigits [a, b, c, d, e, f] = true)
    (he : allDigits [x, y, z] = true)
    (hl : isRerun l = true) :
    (∀ fv lv : Nat, range_check_bad fv lv = true ↔ (lv = fv ∨ (lv < fv ∧ fv - lv < 100))) ∧
    name_check_bad ([a, b, c, d, e, f, '-', x, y, z] ++ cocSuffix) =
      range_check_bad (valDigits [d, e, f]) (valDigits [x, y, z]) ∧
    name_check_bad ([a, b, c, d, e, f, l, '-', x, y, z] ++ cocSuffix) =
      range_check_bad (valDigits [d, e, f]) (valDigits [x, y, z]) ∧
    name_check_bad ([a, b, c, d, e, f, l, '-', x, y, z, l] ++ cocSuffix) =
      range_check_bad (valDigits [d, e, f]) (valDigits [x, y, z]) := by
  refine ⟨range_check_bad_iff, ?_, ?_, ?_⟩
  · have hp : parseCoc ([a, b, c, d, e, f, '-', x, y, z] ++ cocSuffix) =
        some (.range [a, b, c, d, e, f] none [x, y, z] false) := by
      rw [parseCoc_append]
      simp only [parseCocCore]
      simp [hd, he]
    simp only [name_check_bad, hp]
    simp
  · have hp : parseCoc ([a, b, c, d, e, f, l, '-', x, y, z] ++ cocSuffix) =
        some (.range [a, b, c, d, e, f] (some l) [x, y, z] false) := by
      rw [parseCoc_append]
      simp only [parseCocCore]
      simp [hd, he, hl]
    simp only [name_check_bad, hp]
    simp
  · have hp : parseCoc ([a, b, c, d, e, f, l, '-', x, y, z, l] ++ cocSuffix) =
        some (.range [a, b, c, d, e, f] (some l) [x, y, z] true) := by
      rw [parseCoc_append]
      simp only [parseCocCore]
      simp [hd, he, hl]
    simp only [name_check_bad, hp]
    simp

/-- Witness for `name_check_range_rule` at `123450-452`, letter `a`. -/
theorem name_check_range_rule_witness :
    (∀ fv lv : Nat, range_check_bad fv lv = true ↔ (lv = fv ∨ (lv < fv ∧ fv - lv < 100))) ∧
    name_check_bad (['1', '2', '3', '4', '5', '0', '-', '4', '5', '2'] ++ cocSuffix) =
      range_check_bad (valDigits ['4', '5', '0']) (valDigits ['4', '5', '2']) ∧
    name_check_bad (['1', '2', '3', '4', '5', '0', 'a', '-', '4', '5', '2'] ++ cocSuffix) =
      range_check_bad (valDigits ['4', '5', '0']) (valDigits ['4', '5', '2']) ∧
    name_check_bad (['1', '2', '3', '4', '5', '0', 'a', '-', '4', '5', '2', 'a'] ++ cocSuffix) =
      range_check_bad (valDigits ['4', '5', '0']) (valDigits ['4', '5', '2']) :=
  name_check_range_rule '1' '2' '3' '4' '5' '0' '4' '5' '2' 'a'
    (by decide) (by decide) (by decide)

/-- C6 (amended, confirmed): `name_check` marks invalid every range name
whose end carries a rerun letter the start lacks, and every range name whose
two rerun letters differ (neither matches the grammar); the one exception to
the claim is a start letter with no end letter, which is accepted — see
`name_check_mixed_rerun_cx`. -/
theorem name_check_rerun_marker_rule
    (a b c d e f x y z l l' : Char)
    (hd : allDigits [a, b, c, d, e, f] = true)
    (he : allDigits [x, y, z] = true)
    (hl : isRerun l = true) (hl' : isRerun l' = true) :
    name_check_bad ([a, b, c, d, e, f, '-', x, y, z, l'] ++ cocSuffix) = true ∧
    (l ≠ l' → name_check_bad ([a, b, c, d, e, f, l, '-', x, y, z, l'] ++ cocSuffix) = true) := by
  constructor
  · have hdash : isRerun '-' = false := by decide
    have hp : parseCoc ([a, b, c, d, e, f, '-', x, y, z, l'] ++ cocSuffix) = none := by
      rw [parseCoc_append]
      simp only [parseCocCore]
      simp [hdash]
    simp only [name_check_bad, hp]
  · intro hne
    have hb : (l' == l) = false := by
      simp only [beq_eq_false_iff_ne]
      exact fun hcontra => hne hcontra.symm
    have hp : parseCoc ([a, b, c, d, e, f, l, '-', x, y, z, l'] ++ cocSuffix) = none := by
      rw [parseCoc_append]
      simp only [parseCocCore]
      simp [hb]
    simp only [name_check_bad, hp]

/-- Witness for `name_check_rerun_marker_rule` at `123450-452b` and
`123450a-452b`. -/
theorem name_check_rerun_marker_rule_witness :
    name_check_bad (['1', '2', '3', '4', '5', '0', '-', '4', '5', '2', 'b'] ++ cocSuffix) = true ∧
    name_check_bad (['1', '2', '3', '4', '5', '0', 'a', '-', '4', '5', '2', 'b'] ++ cocSuffix) = true :=
  ⟨(name_check_rerun_marker_rule '1' '2' '3' '4' '5' '0' '4' '5' '2' 'a' 'b'
      (by decide) (by decide) (by decide) (by decide)).1,
   (name_check_rerun_marker_rule '1' '2' '3' '4' '5' '0' '4' '5' '2' 'a' 'b'
      (by decide) (by decide) (by decide) (by decide)).2 (by decide)⟩

/-! ### Character-class and splitting lemmas -/

theorem isRerun_cases {l : Char} (h : isRerun l = true) :
    l = 'a' ∨ l = 'b' ∨ l = 'c' ∨ l = 'd' := by
  simp only [isRerun, Bool.or_eq_true, beq_iff_eq] at h
  tauto

theorem isRerun_not_digit {l : Char} (h : isRerun l = true) : isDigitCh l = false := by
  rcases isRerun_cases h with rfl | rfl | rfl | rfl <;> decide

theorem isRerun_ne_dash {l : Char} (h : isRerun l = true) : l ≠ '-' := by
  rcases isRerun_cases h with rfl | rfl | rfl | rfl <;> decide

theorem digit_ne_of_not_digit {c q : Char} (h : isDigitCh c = true)
    (hq : isDigitCh q = false) : c ≠ q := by
  intro heq
  rw [heq, hq] at h
  exact absurd h (by simp)

theorem dash_not_mem_of_allDigits {s : Str} (h : allDigits s = true) : '-' ∉ s := by
  intro hm
  have := List.all_eq_true.mp h _ hm
  exact absurd this (by decide)

theorem takeWhile_dash (xs ys : Str) (hx : '-' ∉ xs) :
    (xs ++ '-' :: ys).takeWhile (fun c => c != '-') = xs := by
  induction xs with
  | nil => simp
  | cons x xs ih =>
    have hxd : x ≠ '-' := fun heq => hx (heq ▸ List.mem_cons_self x xs)
    have hm : '-' ∉ xs := fun hmem => hx (List.mem_cons_of_mem x hmem)
    simp only [List.cons_append, List.takeWhile_cons]
    simp [hxd, ih hm]

theorem dropWhile_dash (xs ys : Str) (hx : '-' ∉ xs) :
    (xs ++ '-' :: ys).dropWhile (fun c => c != '-') = '-' :: ys := by
  induction xs with
  | nil => simp
  | cons x xs ih =>
    have hxd : x ≠ '-' := fun heq => hx (heq ▸ List.mem_cons_self x xs)
    have hm : '-' ∉ xs := fun hmem => hx (List.mem_cons_of_mem x hmem)
    simp only [List.cons_append, List.dropWhile_cons]
    simp [hxd, ih hm]

theorem dedup_toFinset (l : List Str) : l.dedup.toFinset = l.toFinset := by
  ext x; simp [List.mem_dedup]

/-! ### Parser inversion -/

theorem parseCoc_some_inv {s : Str} {φ : CocForm} (h : parseCoc s = some φ) :
    ∃ core, s = core ++ cocSuffix ∧ parseCocCore core = some φ := by
  unfold parseCoc at h
  by_cases hc : (7 ≤ s.length && s.drop (s.length - 7) == cocSuffix) = true
  · rw [if_pos hc] at h
    refine ⟨s.take (s.length - 7), ?_, h⟩
    simp only [Bool.and_eq_true, beq_iff_eq, decide_eq_true_eq] at hc
    conv_lhs => rw [← List.take_append_drop (s.length - 7) s]
    rw [hc.2]
  · rw [if_neg hc] at h
    exact absurd h (by simp)

theorem parseCocCore_range_inv {core d6 e3 : Str} {lett : Option Char} {endL : Bool}
    (h : parseCocCore core = some (.range d6 lett e3 endL)) :
    allDigits d6 = true ∧ allDigits e3 = true ∧ d6.length = 6 ∧ e3.length = 3 ∧
    ((lett = none ∧ endL = false ∧ core = d6 ++ '-' :: e3) ∨
     (∃ l, lett = some l ∧ isRerun l = true ∧
       ((endL = false ∧ core = d6 ++ l :: '-' :: e3) ∨
        (endL = true ∧ core = d6 ++ l :: '-' :: (e3 ++ [l]))))) := by
  unfold parseCocCore at h
  split at h
  · split at h <;> simp_all
  · split at h <;> simp_all
  · split at h <;> simp_all
  · split at h
    · rename_i hguard
      simp only [Option.some_inj, CocForm.range.injEq] at h
      obtain ⟨h1, h2, h3, h4⟩ := h
      subst h1; subst h2; subst h3; subst h4
      simp only [Bool.and_eq_true, beq_iff_eq] at hguard
      obtain ⟨⟨hd, hdash⟩, he⟩ := hguard
      subst hdash
      exact ⟨hd, he, rfl, rfl, Or.inl ⟨rfl, rfl, by simp⟩⟩
    · simp at h
  · split at h
    · rename_i hguard
      simp only [Option.some_inj, CocForm.range.injEq] at h
      obtain ⟨h1, h2, h3, h4⟩ := h
      subst h1; subst h2; subst h3; subst h4
      simp only [Bool.and_eq_true, beq_iff_eq] at hguard
      obtain ⟨⟨⟨hd, hg⟩, hdash⟩, he⟩ := hguard
      subst hdash
      exact ⟨hd, he, rfl, rfl, Or.inr ⟨_, rfl, hg, Or.inl ⟨rfl, by simp⟩⟩⟩
    · simp at h
  · split at h
    · rename_i hguard
      simp only [Option.some_inj, CocForm.range.injEq] at h
      obtain ⟨h1, h2, h3, h4⟩ := h
      subst h1; subst h2; subst h3; subst h4
      simp only [Bool.and_eq_true, beq_iff_eq] at hguard
      obtain ⟨⟨⟨⟨hd, hg⟩, hdash⟩, he⟩, hk⟩ := hguard
      subst hdash; subst hk
      exact ⟨hd, he, rfl, rfl, Or.inr ⟨_, rfl, hg, Or.inr ⟨rfl, by simp⟩⟩⟩
    · simp at h
  · simp at h

/-! ### Range expansion: supporting lemmas -/

theorem take_core (core : Str) :
    (core ++ cocSuffix).take ((core ++ cocSuffix).length - 7) = core := by
  have hlen : (core ++ cocSuffix).length = core.length + 7 := by simp [cocSuffix]
  rw [hlen]
  have h7 : core.length + 7 - 7 = core.length := by omega
  rw [h7, List.take_left]

theorem two_isPrefixOf_false {u v c0 : Char} (hne : c0 ≠ u) (rest : Str) :
    [u, v].isPrefixOf (c0 :: rest) = false := by
  cases hp : [u, v].isPrefixOf (c0 :: rest) with
  | false => rfl
  | true =>
    obtain ⟨t, ht⟩ := List.isPrefixOf_iff_prefix.mp hp
    injection ht with h1 _
    exact absurd h1.symm hne

theorem allDigits_take {s : Str} (n : Nat) (h : allDigits s = true) :
    allDigits (s.take n) = true := by
  unfold allDigits at *
  rw [List.all_eq_true] at *
  exact fun x hx => h x (List.mem_of_mem_take hx)

theorem allDigits_drop {s : Str} (n : Nat) (h : allDigits s = true) :
    allDigits (s.drop n) = true := by
  unfold allDigits at *
  rw [List.all_eq_true] at *
  exact fun x hx => h x (List.mem_of_mem_drop hx)

theorem isNumericStr_of_digits {s : Str} (hne : s ≠ []) (h : allDigits s = true) :
    isNumericStr s = true := by
  cases s with
  | nil => exact absurd rfl hne
  | cons c t => simp only [isNumericStr, List.isEmpty_cons, Bool.not_false, Bool.true_and]; exact h

theorem isNumericStr_concat_rerun {s : Str} {l : Char} (hl : isRerun l = true) :
    isNumericStr (s ++ [l]) = false := by
  unfold isNumericStr
  simp [List.all_append, isRerun_not_digit hl]

theorem append_tail_injective (tail : Str) :
    Function.Injective (fun x : Nat => natRepr x ++ tail) := by
  intro m n h
  exact natRepr_injective (List.append_left_injective tail h)

theorem rollover_bounds (base fg lg : Nat) (hfg : fg < 1000) (hlg : lg < 1000)
    (hok : range_check_bad fg lg = false) :
    base * 1000 + fg ≤
      (if base * 1000 + lg < base * 1000 + fg then base * 1000 + lg + 1000
       else base * 1000 + lg) ∧
    ((if base * 1000 + lg + 1 < base * 1000 + fg then base * 1000 + lg + 1 + 1000
      else base * 1000 + lg + 1) =
      (if base * 1000 + lg < base * 1000 + fg then base * 1000 + lg + 1000
       else base * 1000 + lg) + 1) := by
  have hnot : ¬(lg = fg ∨ (lg < fg ∧ fg - lg < 100)) := by
    intro hP
    rw [(range_check_bad_iff fg lg).mpr hP] at hok
    exact absurd hok (by simp)
  split_ifs <;> omega

theorem icc_pack (f L : Nat) (tail : Str) (hfL : f ≤ L) :
    ((pyRange f (L + 1)).map (fun x => natRepr x ++ tail)).toFinset =
      (Finset.Icc f L).image (fun x => natRepr x ++ tail) ∧
    ((pyRange f (L + 1)).map (fun x => natRepr x ++ tail)).toFinset.card = L - f + 1 ∧
    ((pyRange f (L + 1)).map (fun x => natRepr x ++ tail)).toFinset.Nonempty ∧
    (∀ s ∈ ((pyRange f (L + 1)).map (fun x => natRepr x ++ tail)).toFinset,
      ∃ x, f ≤ x ∧ x ≤ L ∧ s = natRepr x ++ tail) := by
  have himage : ((pyRange f (L + 1)).map (fun x => natRepr x ++ tail)).toFinset =
      (Finset.Icc f L).image (fun x => natRepr x ++ tail) := by
    ext s
    simp only [List.mem_toFinset, List.mem_map, Finset.mem_image, Finset.mem_Icc, pyRange,
      List.mem_range'_1]
    constructor
    · rintro ⟨x, ⟨hx1, hx2⟩, rfl⟩
      exact ⟨x, ⟨hx1, by omega⟩, rfl⟩
    · rintro ⟨x, ⟨hx1, hx2⟩, rfl⟩
      exact ⟨x, ⟨hx1, by omega⟩, rfl⟩
  refine ⟨himage, ?_, ?_, ?_⟩
  · rw [himage, Finset.card_image_of_injective _ (append_tail_injective tail), Nat.card_Icc]
    omega
  · rw [himage]
    exact (Finset.nonempty_Icc.mpr hfL).image _
  · intro s hs
    rw [himage] at hs
    simp only [Finset.mem_image, Finset.mem_Icc] at hs
    obtain ⟨x, ⟨hx1, hx2⟩, rfl⟩ := hs
    exact ⟨x, hx1, hx2, rfl⟩

theorem get_ranges_numeric_eval {d6 e3 : Str}
    (hd6 : allDigits d6 = true) (hlen6 : d6.length = 6) :
    get_ranges ((d6 ++ '-' :: e3) ++ cocSuffix) =
      ((pyRange (valDigits d6)
        (if valDigits (d6.take 3 ++ e3) + 1 < valDigits d6
         then valDigits (d6.take 3 ++ e3) + 1 + 1000
         else valDigits (d6.take 3 ++ e3) + 1)).map natRepr).toFinset := by
  obtain ⟨c0, d6t, rfl⟩ : ∃ c0 d6t, d6 = c0 :: d6t := by
    cases d6 with
    | nil => simp at hlen6
    | cons c t => exact ⟨c, t, rfl⟩
  have hc0 : isDigitCh c0 = true := by
    unfold allDigits at hd6
    rw [List.all_eq_true] at hd6
    exact hd6 c0 (List.mem_cons_self c0 d6t)
  have h1 : (['Q', 'C'].isPrefixOf (c0 :: (d6t ++ '-' :: e3))) = false :=
    two_isPrefixOf_false (digit_ne_of_not_digit hc0 (by decide)) _
  have h2 : (['W', 'P'].isPrefixOf (c0 :: (d6t ++ '-' :: e3))) = false :=
    two_isPrefixOf_false (digit_ne_of_not_digit hc0 (by decide)) _
  have h3 : (['S', 'P'].isPrefixOf (c0 :: (d6t ++ '-' :: e3))) = false :=
    two_isPrefixOf_false (digit_ne_of_not_digit hc0 (by decide)) _
  have hdash : '-' ∉ (c0 :: d6t) := dash_not_mem_of_allDigits hd6
  have hmem : '-' ∈ c0 :: (d6t ++ '-' :: e3) :=
    List.mem_cons_of_mem _ (List.mem_append_right _ (List.mem_cons_self '-' e3))
  have ht : List.takeWhile (fun c => c != '-') (c0 :: (d6t ++ '-' :: e3)) = c0 :: d6t := by
    rw [← List.cons_append]
    exact takeWhile_dash _ _ hdash
  have hdw : List.dropWhile (fun c => c != '-') (c0 :: (d6t ++ '-' :: e3)) = '-' :: e3 := by
    rw [← List.cons_append]
    exact dropWhile_dash _ _ hdash
  have hnum : isNumericStr (c0 :: d6t) = true :=
    isNumericStr_of_digits (List.cons_ne_nil c0 d6t) hd6
  unfold get_ranges get_ranges_list
  rw [take_core]
  simp only [List.cons_append, h1, h2, h3, Bool.or_self, Bool.false_eq_true, if_false,
    hmem, if_true, ht, hdw, List.tail_cons, hnum, dedup_toFinset]

theorem get_ranges_rerun_eval {d6 e3 : Str} {l : Char}
    (hd6 : allDigits d6 = true) (hlen6 : d6.length = 6) (hl : isRerun l = true) :
    get_ranges ((d6 ++ l :: '-' :: (e3 ++ [l])) ++ cocSuffix) =
      ((pyRange (valDigits d6)
        (if valDigits (d6.take 3 ++ e3) + 1 < valDigits d6
         then valDigits (d6.take 3 ++ e3) + 1 + 1000
         else valDigits (d6.take 3 ++ e3) + 1)).map (fun x => natRepr x ++ [l])).toFinset := by
  obtain ⟨c0, d6t, rfl⟩ : ∃ c0 d6t, d6 = c0 :: d6t := by
    cases d6 with
    | nil => simp at hlen6
    | cons c t => exact ⟨c, t, rfl⟩
  have hc0 : isDigitCh c0 = true := by
    unfold allDigits at hd6
    rw [List.all_eq_true] at hd6
    exact hd6 c0 (List.mem_cons_self c0 d6t)
  have h1 : (['Q', 'C'].isPrefixOf (c0 :: (d6t ++ l :: '-' :: (e3 ++ [l])))) = false :=
    two_isPrefixOf_false (digit_ne_of_not_digit hc0 (by decide)) _
  have h2 : (['W', 'P'].isPrefixOf (c0 :: (d6t ++ l :: '-' :: (e3 ++ [l])))) = false :=
    two_isPrefixOf_false (digit_ne_of_not_digit hc0 (by decide)) _
  have h3 : (['S', 'P'].isPrefixOf (c0 :: (d6t ++ l :: '-' :: (e3 ++ [l])))) = false :=
    two_isPrefixOf_false (digit_ne_of_not_digit hc0 (by decide)) _
  have hmem : '-' ∈ c0 :: (d6t ++ l :: '-' :: (e3 ++ [l])) := by
    apply List.mem_cons_of_mem
    apply List.mem_append_right
    exact List.mem_cons_of_mem _ (List.mem_cons_self '-' _)
  have hdash1 : '-' ∉ (c0 :: d6t) ++ [l] := by
    intro hcontra
    rcases List.mem_append.mp hcontra with hmem1 | hmem1
    · exact dash_not_mem_of_allDigits hd6 hmem1
    · rcases List.mem_singleton.mp hmem1 with heq
      exact isRerun_ne_dash hl heq.symm
  have hshape : c0 :: (d6t ++ l :: '-' :: (e3 ++ [l])) =
      ((c0 :: d6t) ++ [l]) ++ '-' :: (e3 ++ [l]) := by simp
  have ht : List.takeWhile (fun c => c != '-') (c0 :: (d6t ++ l :: '-' :: (e3 ++ [l]))) =
      (c0 :: d6t) ++ [l] := by
    rw [hshape]
    exact takeWhile_dash _ _ hdash1
  have hdw : List.dropWhile (fun c => c != '-') (c0 :: (d6t ++ l :: '-' :: (e3 ++ [l]))) =
      '-' :: (e3 ++ [l]) := by
    rw [hshape]
    exact dropWhile_dash _ _ hdash1
  have htake : ((c0 :: d6t) ++ [l]).take 3 = (c0 :: d6t).take 3 :=
    List.take_append_of_le_length (by rw [hlen6]; omega)
  have hnum : isNumericStr ((c0 :: d6t) ++ [l]) = false := isNumericStr_concat_rerun hl
  have hrer : ((c0 :: d6t) ++ [l]).drop (((c0 :: d6t) ++ [l]).length - 1) = [l] := by
    have hlen7 : ((c0 :: d6t) ++ [l]).length = 7 := by
      simp only [List.length_append, hlen6, List.length_cons, List.length_nil]
    rw [hlen7]
    show ((c0 :: d6t) ++ [l]).drop 6 = [l]
    rw [show (6 : Nat) = (c0 :: d6t).length from hlen6.symm]
    exact List.drop_left _ _
  have hdl1 : ((c0 :: d6t) ++ [l]).dropLast = c0 :: d6t := List.dropLast_concat
  have hdl2 : ((c0 :: d6t).take 3 ++ (e3 ++ [l])).dropLast = (c0 :: d6t).take 3 ++ e3 := by
    rw [show (c0 :: d6t).take 3 ++ (e3 ++ [l]) = ((c0 :: d6t).take 3 ++ e3) ++ [l] by simp]
    exact List.dropLast_concat
  simp only [List.cons_append] at ht hdw htake hnum hrer hdl1 hdl2
  unfold get_ranges get_ranges_list
  rw [take_core]
  simp only [List.cons_append, h1, h2, h3, Bool.or_self, Bool.false_eq_true, if_false,
    hmem, if_true, ht, hdw, List.tail_cons, htake, hnum, hrer, hdl1, hdl2, dedup_toFinset]

/-- C3 (amended, confirmed): for every range CoC name that passes validation
and whose rerun markers are consistent (a letter on both ends, or on
neither), `get_ranges` returns exactly the set of decimal renderings
`str(x)` (with the shared rerun letter re-appended) of the integers `x` in
`[first, last]`, where `last` is corrected by `+1000` on rollover
(`last < first`); the set's size is `last - first + 1`, it is never empty,
and contains no value outside `[first, last]`.  (Unlike the claim, members
are not zero-padded to six digits: `str` renders the bare integer, and for a
start-letter-only name the set is empty — see `get_ranges_mixed_empty`.) -/
theorem get_ranges_range_spec
    (i : Str) (d6 e3 : Str) (lett : Option Char) (endL : Bool) (f L : Nat)
    (hp : parseCoc i = some (.range d6 lett e3 endL))
    (hcons : (lett = none ∧ endL = false) ∨ (∃ l, lett = some l ∧ endL = true))
    (hok : name_check_bad i = false)
    (hf : f = valDigits d6)
    (hL : L = if valDigits (d6.take 3 ++ e3) < f then valDigits (d6.take 3 ++ e3) + 1000
          else valDigits (d6.take 3 ++ e3)) :
    get_ranges i = (Finset.Icc f L).image (fun x => natRepr x ++ lettList lett) ∧
    (get_ranges i).card = L - f + 1 ∧
    f ≤ L ∧
    (get_ranges i).Nonempty ∧
    ∀ s ∈ get_ranges i, ∃ x, f ≤ x ∧ x ≤ L ∧ s = natRepr x ++ lettList lett := by
  obtain ⟨core, rfl, hcore⟩ := parseCoc_some_inv hp
  obtain ⟨hd6, he3, hlen6, hlen3, hshape⟩ := parseCocCore_range_inv hcore
  simp only [name_check_bad, hp] at hok
  have hsplit6 : d6 = d6.take 3 ++ d6.drop 3 := (List.take_append_drop 3 d6).symm
  have hlen_drop : (d6.drop 3).length = 3 := by rw [List.length_drop]; omega
  have hvald6 : valDigits d6 = valDigits (d6.take 3) * 1000 + valDigits (d6.drop 3) := by
    conv_lhs => rw [hsplit6]
    rw [valDigits_append, hlen_drop]
    norm_num
  have hvallast : valDigits (d6.take 3 ++ e3) =
      valDigits (d6.take 3) * 1000 + valDigits e3 := by
    rw [valDigits_append, hlen3]
    norm_num
  have hfg : valDigits (d6.drop 3) < 1000 := by
    have hv := valDigits_lt (allDigits_drop 3 hd6)
    rw [hlen_drop] at hv
    simpa using hv
  have hlg : valDigits e3 < 1000 := by
    have hv := valDigits_lt he3
    rw [hlen3] at hv
    simpa using hv
  have hrb := rollover_bounds (valDigits (d6.take 3)) (valDigits (d6.drop 3))
    (valDigits e3) hfg hlg hok
  have hf' : f = valDigits (d6.take 3) * 1000 + valDigits (d6.drop 3) := by
    rw [hf, hvald6]
  have hL' : L = if valDigits (d6.take 3) * 1000 + valDigits e3 <
        valDigits (d6.take 3) * 1000 + valDigits (d6.drop 3)
      then valDigits (d6.take 3) * 1000 + valDigits e3 + 1000
      else valDigits (d6.take 3) * 1000 + valDigits e3 := by
    rw [hL, hf, hvald6, hvallast]
  have hfL : f ≤ L := by
    rw [hf', hL']
    exact hrb.1
  rcases hshape with ⟨hlett, hendl, hcoreeq⟩ | ⟨l, hlett, hrerun, hsub⟩
  · -- plain numeric range
    subst hcoreeq
    subst hlett
    have heval := @get_ranges_numeric_eval d6 e3 hd6 hlen6
    rw [hvald6, hvallast, hrb.2, ← hL', ← hf'] at heval
    have hfun : (fun x : Nat => natRepr x ++ lettList none) = natRepr := by
      funext x
      simp [lettList]
    have hpk := icc_pack f L (lettList none) hfL
    rw [hfun] at hpk
    rw [hfun]
    refine ⟨heval.trans hpk.1, ?_, hfL, ?_, ?_⟩
    · rw [heval]
      exact hpk.2.1
    · rw [heval]
      exact hpk.2.2.1
    · rw [heval]
      exact hpk.2.2.2
  · -- rerun range
    rcases hcons with ⟨hnone, _⟩ | ⟨l', hl', hendl⟩
    · rw [hlett] at hnone
      exact absurd hnone (by simp)
    rcases hsub with ⟨hendl2, _⟩ | ⟨hendl2, hcoreeq⟩
    · rw [hl'] at hlett
      rw [hendl] at hendl2
      exact absurd hendl2 (by simp)
    subst hcoreeq
    subst hlett
    have heval := @get_ranges_rerun_eval d6 e3 l hd6 hlen6 hrerun
    rw [hvald6, hvallast, hrb.2, ← hL', ← hf'] at heval
    have hpk := icc_pack f L [l] hfL
    have hll : lettList (some l) = [l] := rfl
    rw [hll]
    refine ⟨heval.trans hpk.1, ?_, hfL, ?_, ?_⟩
    · rw [heval]
      exact hpk.2.1
    · rw [heval]
      exact hpk.2.2.1
    · rw [heval]
      exact hpk.2.2.2

/-- Witness for `get_ranges_range_spec` at `123450-452coc.pdf`. -/
theorem get_ranges_range_spec_witness :
    get_ranges coc_range450 =
      (Finset.Icc 123450 123452).image (fun x => natRepr x ++ lettList none) ∧
    (get_ranges coc_range450).card = 123452 - 123450 + 1 ∧
    (123450 : Nat) ≤ 123452 ∧
    (get_ranges coc_range450).Nonempty ∧
    (∀ s ∈ get_ranges coc_range450,
      ∃ x, 123450 ≤ x ∧ x ≤ 123452 ∧ s = natRepr x ++ lettList none) :=
  get_ranges_range_spec coc_range450 ['1', '2', '3', '4', '5', '0'] ['4', '5', '2'] none false
    123450 123452 (by decide) (Or.inl ⟨rfl, rfl⟩) (by decide) (by decide) (by decide)

/-! ### Removal from the stack -/


theorem removeFirst_perm {st : List Str} {f : Str} (h : f ∈ st) :
    st.Perm (f :: removeFirst st f) := by
  induction st with
  | nil => exact absurd h (by simp)
  | cons x xs ih =>
    unfold removeFirst
    by_cases hx : x = f
    · rw [if_pos hx, hx]
    · rw [if_neg hx]
      have hmem : f ∈ xs := by
        rcases List.mem_cons.mp h with heq | hmem
        · exact absurd heq.symm hx
        · exact hmem
      exact ((ih hmem).cons x).trans (List.Perm.swap f x _)

theorem removeAll_multiset : ∀ {ms st st' : List Str}, removeAll st ms = some st' →
    (st : Multiset Str) = (st' : Multiset Str) + (ms : Multiset Str) := by
  intro ms
  induction ms with
  | nil =>
    intro st st' h
    simp only [removeAll, Option.some_inj] at h
    subst h
    simp
  | cons m ms ih =>
    intro st st' h
    unfold removeAll at h
    by_cases hm : m ∈ st
    · rw [if_pos hm] at h
      have hrec := ih h
      have hperm : (st : Multiset Str) = m ::ₘ (removeFirst st m : Multiset Str) :=
        Multiset.coe_eq_coe.mpr (removeFirst_perm hm)
      rw [hperm, hrec, ← Multiset.singleton_add, ← Multiset.cons_coe, ← Multiset.singleton_add,
        add_left_comm]
    · rw [if_neg hm] at h
      exact absurd h (by simp)

theorem removeAll_mem_of_mem : ∀ {ms st st' : List Str}, removeAll st ms = some st' →
    ∀ q ∈ st', q ∈ st := by
  intro ms st st' h q hq
  have hmul := removeAll_multiset h
  have : q ∈ (st : Multiset Str) := by
    rw [hmul]
    exact Multiset.mem_add.mpr (Or.inl hq)
  simpa using this

theorem removeAll_nodup_notmem : ∀ {ms st st' : List Str}, removeAll st ms = some st' →
    st.Nodup → st'.Nodup ∧ ∀ q ∈ ms, q ∉ st' := by
  intro ms
  induction ms with
  | nil =>
    intro st st' h hnd
    simp only [removeAll, Option.some_inj] at h
    subst h
    exact ⟨hnd, by simp⟩
  | cons m ms ih =>
    intro st st' h hnd
    unfold removeAll at h
    by_cases hm : m ∈ st
    · rw [if_pos hm] at h
      have hcons : (m :: removeFirst st m).Nodup := ((removeFirst_perm hm).nodup) hnd
      have hnd2 : (removeFirst st m).Nodup := hcons.of_cons
      have hmnot : m ∉ removeFirst st m := by
        intro hc
        exact (List.nodup_cons.mp hcons).1 hc
      obtain ⟨hnd', hnotmem⟩ := ih h hnd2
      refine ⟨hnd', ?_⟩
      intro q hq
      rcases List.mem_cons.mp hq with rfl | hq2
      · exact fun hc => hmnot (removeAll_mem_of_mem h q hc)
      · exact hnotmem q hq2
    · rw [if_neg hm] at h
      exact absurd h (by simp)

theorem matched_mem_iff (required : List Str) (st : List Str) (q : Str) :
    q ∈ required.flatMap (fun j => st.filter (fun kk => j.isPrefixOf kk)) ↔
      q ∈ st ∧ ∃ j ∈ required, j.isPrefixOf q = true := by
  simp only [List.mem_flatMap, List.mem_filter]
  constructor
  · rintro ⟨j, hj, hq, hpre⟩
    exact ⟨hq, j, hj, hpre⟩
  · rintro ⟨hq, j, hj, hpre⟩
    exact ⟨j, hj, hq, hpre⟩

theorem backcheck_fst (c : Str) (st : List Str) : (backcheck c st).1 = get_ranges_list c := by
  unfold backcheck
  split <;> rfl

theorem agg_step_emit_inv {dirs : Dirs} {cocl : List Str} {tup : CocTuple}
    {p : Str} {t st' : List Str} {k : Str} {bdl : Bundle}
    (hstep : agg_step dirs cocl tup (p :: t) = some (st', .toReport k bdl)) :
    ∃ coc, find_coc dirs cocl tup p = some coc ∧
      k = remove_coc (basename coc) ∧
      bdl = ⟨coc, List.insertionSort strLe
        ((backcheck (basename coc) (p :: t)).1.flatMap
          (fun j => (p :: t).filter (fun kk => j.isPrefixOf kk))),
        (backcheck (basename coc) (p :: t)).2⟩ ∧
      removeAll (p :: t)
        ((backcheck (basename coc) (p :: t)).1.flatMap
          (fun j => (p :: t).filter (fun kk => j.isPrefixOf kk))) = some st' := by
  simp only [agg_step] at hstep
  cases hfc : find_coc dirs cocl tup p with
  | none =>
    rw [hfc] at hstep
    simp at hstep
  | some coc =>
    rw [hfc] at hstep
    simp only at hstep
    cases hra : removeAll (p :: t)
        ((backcheck (basename coc) (p :: t)).1.flatMap
          (fun j => (p :: t).filter (fun kk => j.isPrefixOf kk))) with
    | none =>
      rw [hra] at hstep
      simp at hstep
    | some st2 =>
      rw [hra] at hstep
      simp only [Option.some_inj, Prod.mk.injEq, StepEffect.toReport.injEq] at hstep
      obtain ⟨h1, h2, h3⟩ := hstep
      exact ⟨coc, rfl, h2.symm, h3.symm, h1 ▸ hra⟩

/-- C5 (amended, confirmed): in each bundle-emission step of `aggregator`
on a duplicate-free stack, the emitted bundle's `pdfs` is sorted
lexicographically regardless of discovery order and contains exactly the
stack entries that some id of the CoC's expanded required set *prefixes*
(`k.startswith(j)`, not equality of the stripped prefix — see the
counterexample — with multiple pages per id all collected); every matched
page is removed from the stack and no other entry is. -/
theorem agg_step_emission_spec
    (dirs : Dirs) (cocl : List Str) (tup : CocTuple) (p : Str) (t st' : List Str)
    (k : Str) (bdl : Bundle)
    (hnd : (p :: t).Nodup)
    (hstep : agg_step dirs cocl tup (p :: t) = some (st', .toReport k bdl)) :
    List.Sorted strLe bdl.pdfs ∧
    (∀ q, q ∈ bdl.pdfs ↔
      (q ∈ p :: t ∧ ∃ j ∈ get_ranges (basename bdl.coc), j.isPrefixOf q = true)) ∧
    ((p :: t : Multiset Str) = (st' : Multiset Str) + (bdl.pdfs : Multiset Str)) ∧
    (∀ q ∈ bdl.pdfs, q ∉ st') := by
  obtain ⟨coc, hfc, hk, hbdl, hra⟩ := agg_step_emit_inv hstep
  subst hbdl
  have hmatched : ∀ q,
      q ∈ (backcheck (basename coc) (p :: t)).1.flatMap
        (fun j => (p :: t).filter (fun kk => j.isPrefixOf kk)) ↔
      (q ∈ p :: t ∧ ∃ j ∈ get_ranges (basename coc), j.isPrefixOf q = true) := by
    intro q
    rw [matched_mem_iff, backcheck_fst]
    constructor
    · rintro ⟨hq, j, hj, hpre⟩
      exact ⟨hq, j, by simpa [get_ranges] using hj, hpre⟩
    · rintro ⟨hq, j, hj, hpre⟩
      exact ⟨hq, j, by simpa [get_ranges] using hj, hpre⟩
  refine ⟨?_, ?_, ?_, ?_⟩
  · exact List.sorted_insertionSort strLe _
  · intro q
    rw [show (Bundle.mk coc _ _).pdfs = List.insertionSort strLe _ from rfl]
    rw [List.mem_insertionSort]
    exact hmatched q
  · have hmul := removeAll_multiset hra
    rw [hmul]
    congr 1
    exact (Multiset.coe_eq_coe.mpr (List.perm_insertionSort strLe _)).symm
  · intro q hq
    rw [show (Bundle.mk coc _ _).pdfs = List.insertionSort strLe _ from rfl,
      List.mem_insertionSort] at hq
    exact (removeAll_nodup_notmem hra hnd).2 q hq

/-- Witness for `agg_step_emission_spec`: the emission step for
`123456coc.pdf` on the stack `['123456pg1.pdf']`. -/
theorem agg_step_emission_spec_witness :
    List.Sorted strLe (Bundle.mk coc_single6 [pg_123456] none).pdfs ∧
    (∀ q, q ∈ (Bundle.mk coc_single6 [pg_123456] none).pdfs ↔
      (q ∈ [pg_123456] ∧
        ∃ j ∈ get_ranges (basename (Bundle.mk coc_single6 [pg_123456] none).coc),
          j.isPrefixOf q = true)) ∧
    (([pg_123456] : Multiset Str) =
      (([] : List Str) : Multiset Str) +
        ((Bundle.mk coc_single6 [pg_123456] none).pdfs : Multiset Str)) ∧
    (∀ q ∈ (Bundle.mk coc_single6 [pg_123456] none).pdfs, q ∉ ([] : List Str)) :=
  agg_step_emission_spec dirs0 [coc_single6] tup0 pg_123456 [] []
    (remove_coc (basename coc_single6)) (Bundle.mk coc_single6 [pg_123456] none)
    (by decide) (by decide)

/-! ### Valid CoC names: character facts, `replace('coc','')`, `basename` -/

theorem digit_ne_slash_o {c : Char} (h : isDigitCh c = true) : c ≠ '/' ∧ c ≠ 'o' :=
  ⟨digit_ne_of_not_digit h (by decide), digit_ne_of_not_digit h (by decide)⟩

theorem rerun_ne_slash_o {c : Char} (h : isRerun c = true) : c ≠ '/' ∧ c ≠ 'o' := by
  rcases isRerun_cases h with rfl | rfl | rfl | rfl <;> exact ⟨by decide, by decide⟩

theorem qcPair_cases {q w : Char} (h : qcPair q w = true) :
    (q = 'Q' ∧ w = 'C') ∨ (q = 'W' ∧ w = 'P') ∨ (q = 'S' ∧ w = 'P') := by
  simp only [qcPair, Bool.or_eq_true, Bool.and_eq_true, beq_iff_eq] at h
  tauto

theorem allDigits_forall {s : Str} (h : allDigits s = true) :
    ∀ c ∈ s, isDigitCh c = true := by
  unfold allDigits at h
  exact List.all_eq_true.mp h

theorem parseCocCore_chars {core : Str} {φ : CocForm} (h : parseCocCore core = some φ) :
    ∀ c ∈ core, c ≠ '/' ∧ c ≠ 'o' := by
  unfold parseCocCore at h
  split at h
  · split at h
    · rename_i hguard
      intro c hc
      simp only [List.mem_cons, List.not_mem_nil, or_false] at hc
      rcases hc with rfl | rfl | rfl | rfl | rfl | rfl <;>
        exact digit_ne_slash_o (allDigits_forall hguard _ (by simp))
    · exact absurd h (by simp)
  · split at h
    · rename_i hguard
      simp only [Bool.and_eq_true] at hguard
      obtain ⟨hd, hg⟩ := hguard
      intro c hc
      simp only [List.mem_cons, List.not_mem_nil, or_false] at hc
      rcases hc with rfl | rfl | rfl | rfl | rfl | rfl | rfl
      · exact digit_ne_slash_o (allDigits_forall hd _ (by simp))
      · exact digit_ne_slash_o (allDigits_forall hd _ (by simp))
      · exact digit_ne_slash_o (allDigits_forall hd _ (by simp))
      · exact digit_ne_slash_o (allDigits_forall hd _ (by simp))
      · exact digit_ne_slash_o (allDigits_forall hd _ (by simp))
      · exact digit_ne_slash_o (allDigits_forall hd _ (by simp))
      · exact rerun_ne_slash_o hg
    · exact absurd h (by simp)
  · split at h
    · rename_i hguard
      simp only [Bool.and_eq_true, beq_iff_eq] at hguard
      obtain ⟨⟨⟨hq, ha⟩, hdash⟩, he⟩ := hguard
      subst hdash
      intro c hc
      simp only [List.mem_cons, List.not_mem_nil, or_false] at hc
      rcases hc with rfl | rfl | rfl | rfl | rfl | rfl | rfl | rfl | rfl
      · rcases qcPair_cases hq with ⟨rfl, _⟩ | ⟨rfl, _⟩ | ⟨rfl, _⟩ <;> exact ⟨by decide, by decide⟩
      · rcases qcPair_cases hq with ⟨_, rfl⟩ | ⟨_, rfl⟩ | ⟨_, rfl⟩ <;> exact ⟨by decide, by decide⟩
      · exact digit_ne_slash_o (allDigits_forall ha _ (by simp))
      · exact digit_ne_slash_o (allDigits_forall ha _ (by simp))
      · exact digit_ne_slash_o (allDigits_forall ha _ (by simp))
      · exact ⟨by decide, by decide⟩
      · exact digit_ne_slash_o (allDigits_forall he _ (by simp))
      · exact digit_ne_slash_o (allDigits_forall he _ (by simp))
      · exact digit_ne_slash_o (allDigits_forall he _ (by simp))
    · exact absurd h (by simp)
  · split at h
    · rename_i hguard
      simp only [Bool.and_eq_true, beq_iff_eq] at hguard
      obtain ⟨⟨hd, hdash⟩, he⟩ := hguard
      subst hdash
      intro c hc
      simp only [List.mem_cons, List.not_mem_nil, or_false] at hc
      rcases hc with rfl | rfl | rfl | rfl | rfl | rfl | rfl | rfl | rfl | rfl
      · exact digit_ne_slash_o (allDigits_forall hd _ (by simp))
      · exact digit_ne_slash_o (allDigits_forall hd _ (by simp))
      · exact digit_ne_slash_o (allDigits_forall hd _ (by simp))
      · exact digit_ne_slash_o (allDigits_forall hd _ (by simp))
      · exact digit_ne_slash_o (allDigits_forall hd _ (by simp))
      · exact digit_ne_slash_o (allDigits_forall hd _ (by simp))
      · exact ⟨by decide, by decide⟩
      · exact digit_ne_slash_o (allDigits_forall he _ (by simp))
      · exact digit_ne_slash_o (allDigits_forall he _ (by simp))
      · exact digit_ne_slash_o (allDigits_forall he _ (by simp))
    · exact absurd h (by simp)
  · split at h
    · rename_i hguard
      simp only [Bool.and_eq_true, beq_iff_eq] at hguard
      obtain ⟨⟨⟨hd, hg⟩, hdash⟩, he⟩ := hguard
      subst hdash
      intro c hc
      simp only [List.mem_cons, List.not_mem_nil, or_false] at hc
      rcases hc with rfl | rfl | rfl | rfl | rfl | rfl | rfl | rfl | rfl | rfl | rfl
      · exact digit_ne_slash_o (allDigits_forall hd _ (by simp))
      · exact digit_ne_slash_o (allDigits_forall hd _ (by simp))
      · exact digit_ne_slash_o (allDigits_forall hd _ (by simp))
      · exact digit_ne_slash_o (allDigits_forall hd _ (by simp))
      · exact digit_ne_slash_o (allDigits_forall hd _ (by simp))
      · exact digit_ne_slash_o (allDigits_forall hd _ (by simp))
      · exact rerun_ne_slash_o hg
      · exact ⟨by decide, by decide⟩
      · exact digit_ne_slash_o (allDigits_forall he _ (by simp))
      · exact digit_ne_slash_o (allDigits_forall he _ (by simp))
      · exact digit_ne_slash_o (allDigits_forall he _ (by simp))
    · exact absurd h (by simp)
  · split at h
    · rename_i hguard
      simp only [Bool.and_eq_true, beq_iff_eq] at hguard
      obtain ⟨⟨⟨⟨hd, hg⟩, hdash⟩, he⟩, hk⟩ := hguard
      subst hdash
      subst hk
      intro c hc
      simp only [List.mem_cons, List.not_mem_nil, or_false] at hc
      rcases hc with rfl | rfl | rfl | rfl | rfl | rfl | rfl | rfl | rfl | rfl | rfl | rfl
      · exact digit_ne_slash_o (allDigits_forall hd _ (by simp))
      · exact digit_ne_slash_o (allDigits_forall hd _ (by simp))
      · exact digit_ne_slash_o (allDigits_forall hd _ (by simp))
      · exact digit_ne_slash_o (allDigits_forall hd _ (by simp))
      · exact digit_ne_slash_o (allDigits_forall hd _ (by simp))
      · exact digit_ne_slash_o (allDigits_forall hd _ (by simp))
      · exact rerun_ne_slash_o hg
      · exact ⟨by decide, by decide⟩
      · exact digit_ne_slash_o (allDigits_forall he _ (by simp))
      · exact digit_ne_slash_o (allDigits_forall he _ (by simp))
      · exact digit_ne_slash_o (allDigits_forall he _ (by simp))
      · exact rerun_ne_slash_o hg
    · exact absurd h (by simp)
  · exact absurd h (by simp)

theorem remove_coc_append {core : Str} (ho : 'o' ∉ core) :
    remove_coc (core ++ cocSuffix) = core ++ ['.', 'p', 'd', 'f'] := by
  induction core with
  | nil => decide
  | cons x xs ih =>
    have hox : 'o' ∉ xs := fun hm => ho (List.mem_cons_of_mem x hm)
    cases xs with
    | nil =>
      by_cases hx : x = 'c'
      · subst hx
        decide
      · show remove_coc (x :: cocSuffix) = x :: ['.', 'p', 'd', 'f']
        rw [remove_coc.eq_def]
        split
        · rename_i heq
          injection heq with h1 _
          exact absurd h1 hx
        · rename_i c rest heq
          injection heq with h1 h2
          subst h1
          subst h2
          congr 1
        · rename_i heq
          exact absurd heq (by simp)
    | cons y ys =>
      have hy : y ≠ 'o' := by
        intro heq
        exact ho (by simp [heq])
      show remove_coc (x :: (y :: ys ++ cocSuffix)) = x :: (y :: ys ++ ['.', 'p', 'd', 'f'])
      rw [remove_coc.eq_def]
      split
      · rename_i heq
        injection heq with h1 h2
        injection h2 with h3 _
        exact absurd h3 hy
      · rename_i c rest heq
        injection heq with h1 h2
        subst h1
        subst h2
        simp only [List.cons_append] at ih ⊢
        rw [ih hox]
      · rename_i heq
        exact absurd heq (by simp)

theorem parseCoc_remove_coc_inj {i i' : Str}
    (hi : (parseCoc i).isSome) (hi' : (parseCoc i').isSome)
    (h : remove_coc i = remove_coc i') : i = i' := by
  obtain ⟨φ, hφ⟩ := Option.isSome_iff_exists.mp hi
  obtain ⟨φ', hφ'⟩ := Option.isSome_iff_exists.mp hi'
  obtain ⟨core, rfl, hc⟩ := parseCoc_some_inv hφ
  obtain ⟨core', rfl, hc'⟩ := parseCoc_some_inv hφ'
  have ho : 'o' ∉ core := fun hm => (parseCocCore_chars hc _ hm).2 rfl
  have ho' : 'o' ∉ core' := fun hm => (parseCocCore_chars hc' _ hm).2 rfl
  rw [remove_coc_append ho, remove_coc_append ho'] at h
  have : core = core' := by
    have hlen : core.length = core'.length := by
      have := congrArg List.length h
      simp at this
      omega
    exact List.append_inj_left h (by rw [hlen]) |>.symm ▸ rfl
  rw [this]

theorem basename_foldl_no_slash {l : Str} (h : '/' ∉ l) :
    ∀ acc : Str, l.foldl (fun acc c => if c = '/' then [] else acc ++ [c]) acc = acc ++ l := by
  induction l with
  | nil => intro acc; simp
  | cons x xs ih =>
    intro acc
    have hx : x ≠ '/' := fun heq => h (by simp [heq])
    have hxs : '/' ∉ xs := fun hm => h (List.mem_cons_of_mem x hm)
    simp only [List.foldl_cons, if_neg hx]
    rw [ih hxs]
    simp

theorem basename_of_no_slash {l : Str} (h : '/' ∉ l) : basename l = l := by
  unfold basename
  rw [basename_foldl_no_slash h]
  simp

theorem basename_of_last_slash {d : Str} (h : d.getLast? = some '/') : basename d = [] := by
  have hne : d ≠ [] := by
    intro rfl2
    subst rfl2
    simp at h
  have hd : d = d.dropLast ++ [d.getLast hne] := (List.dropLast_append_getLast hne).symm
  have hl : d.getLast hne = '/' := by
    have := List.getLast?_eq_getLast d hne
    rw [h] at this
    exact (Option.some_inj.mp this).symm
  unfold basename
  conv_lhs => rw [hd]
  rw [List.foldl_append, hl]
  simp

theorem basename_path_join (d i : Str) (h : '/' ∉ i) : basename (path_join d i) = i := by
  unfold path_join
  split_ifs with h1 h2
  · exact basename_of_no_slash h
  · unfold basename
    rw [List.foldl_append]
    have hb : d.foldl (fun acc c => if c = '/' then [] else acc ++ [c]) [] = [] :=
      basename_of_last_slash h2
    rw [hb, basename_foldl_no_slash h]
    simp
  · unfold basename
    rw [List.foldl_append]
    simp only [List.foldl_cons, if_pos rfl]
    rw [basename_foldl_no_slash h]
    simp

theorem find_coc_some_inv {dirs : Dirs} {cocl : List Str} {tup : CocTuple} {p q : Str}
    (h : find_coc dirs cocl tup p = some q) :
    ∃ i, cocl.find? (fun j => (p.take (p.length - 7)).isPrefixOf j) = some i ∧ i ∈ cocl ∧
      (q = path_join dirs.aus i ∨ q = path_join dirs.corp i ∨ q = path_join dirs.pt i) := by
  unfold find_coc at h
  simp only at h
  cases hf : cocl.find? (fun j => (p.take (p.length - 7)).isPrefixOf j) with
  | none =>
    rw [hf] at h
    exact absurd h (by simp)
  | some i =>
    rw [hf] at h
    simp only [Option.some_inj] at h
    refine ⟨i, rfl, List.mem_of_find?_eq_some hf, ?_⟩
    subst h
    split_ifs with h1 h2
    · exact Or.inl rfl
    · exact Or.inr (Or.inl rfl)
    · exact Or.inr (Or.inr rfl)

theorem agg_step_miss_inv {dirs : Dirs} {cocl : List Str} {tup : CocTuple}
    {p q : Str} {t st' : List Str}
    (hstep : agg_step dirs cocl tup (p :: t) = some (st', .toMissing q)) :
    q = p ∧ st' = t ∧ find_coc dirs cocl tup p = none := by
  simp only [agg_step] at hstep
  cases hfc : find_coc dirs cocl tup p with
  | none =>
    rw [hfc] at hstep
    simp only [Option.some_inj, Prod.mk.injEq, StepEffect.toMissing.injEq] at hstep
    exact ⟨hstep.2.symm, hstep.1.symm, rfl⟩
  | some coc =>
    rw [hfc] at hstep
    simp only at hstep
    cases hra : removeAll (p :: t)
        ((backcheck (basename coc) (p :: t)).1.flatMap
          (fun j => (p :: t).filter (fun kk => j.isPrefixOf kk))) with
    | none =>
      rw [hra] at hstep
      simp at hstep
    | some st2 =>
      rw [hra] at hstep
      simp at hstep

theorem aggregator_invariant (dirs : Dirs) (cocl : List Str) (tup : CocTuple)
    (stack₀ : List Str) (hcoc : ∀ i ∈ cocl, (parseCoc i).isSome) :
    ∀ (fuel : Nat) (s t : AggState), AggInv cocl stack₀ s →
      aggregator dirs cocl tup fuel s = .done t → AggInv cocl stack₀ t ∧ t.stack = [] := by
  intro fuel
  induction fuel with
  | zero =>
    intro s t hinv hrun
    unfold aggregator at hrun
    by_cases hs : s.stack = []
    · rw [if_pos hs] at hrun
      injection hrun with h
      subst h
      exact ⟨hinv, hs⟩
    · rw [if_neg hs] at hrun
      exact absurd hrun (by simp)
  | succ fuel ih =>
    intro s t hinv hrun
    simp only [aggregator] at hrun
    by_cases hs : s.stack = []
    · rw [if_pos hs] at hrun
      injection hrun with h
      subst h
      exact ⟨hinv, hs⟩
    · rw [if_neg hs] at hrun
      obtain ⟨p, t₀, hstack⟩ : ∃ p t₀, s.stack = p :: t₀ := by
        cases hsc : s.stack with
        | nil => exact absurd hsc hs
        | cons a b => exact ⟨a, b, rfl⟩
      rw [hstack] at hrun
      cases hstep : agg_step dirs cocl tup (p :: t₀) with
      | none =>
        rw [hstep] at hrun
        exact absurd hrun (by simp)
      | some pr =>
        obtain ⟨st', eff⟩ := pr
        rw [hstep] at hrun
        simp only at hrun
        obtain ⟨hnd, hconsv, hentries⟩ := hinv
        rw [hstack] at hnd
        cases eff with
        | toMissing q =>
          obtain ⟨hq1, hq2, hfc⟩ := agg_step_miss_inv hstep
          subst hq1
          subst hq2
          refine ih _ t ?_ hrun
          refine ⟨(List.nodup_cons.mp hnd).2, ?_, ?_⟩
          · show (st' : Multiset Str) + ↑(s.missing ++ [q]) + reportPages s.report =
              (stack₀ : Multiset Str)
            rw [← hconsv, hstack]
            have h1 : ((s.missing ++ [q] : List Str) : Multiset Str) = ↑s.missing + ↑[q] := rfl
            have h2 : ((q :: st' : List Str) : Multiset Str) = ↑([q] : List Str) + ↑st' := rfl
            rw [h1, h2]
            abel
          · intro kv hkv
            obtain ⟨i, hi, hki, hpref⟩ := hentries kv hkv
            exact ⟨i, hi, hki,
              fun q2 hq2 j hj => hpref q2 (by rw [hstack]; exact List.mem_cons_of_mem _ hq2) j hj⟩
        | toReport k bdl =>
          obtain ⟨coc, hfc, hk, hbdl, hra⟩ := agg_step_emit_inv hstep
          obtain ⟨i, hfind, hmem, hq⟩ := find_coc_some_inv hfc
          have hslash : '/' ∉ i := by
            obtain ⟨φ, hφ⟩ := Option.isSome_iff_exists.mp (hcoc i hmem)
            obtain ⟨core, rfl, hc⟩ := parseCoc_some_inv hφ
            intro hm
            rcases List.mem_append.mp hm with hm1 | hm1
            · exact (parseCocCore_chars hc _ hm1).1 rfl
            · revert hm1
              decide
          have hbase : basename coc = i := by
            rcases hq with rfl | rfl | rfl <;> exact basename_path_join _ _ hslash
          rw [hbase] at hk hbdl hra
          by_cases hkey : k ∈ s.report.map Prod.fst
          · obtain ⟨kv, hkv, hkvk⟩ := List.mem_map.mp hkey
            obtain ⟨i', hi'mem, hki', hnopref⟩ := hentries kv hkv
            have hii : i' = i := by
              apply parseCoc_remove_coc_inj (hcoc i' hi'mem) (hcoc i hmem)
              rw [← hki', hkvk, hk]
            subst hii
            have hmatched : (backcheck i' (p :: t₀)).1.flatMap
                (fun j => (p :: t₀).filter (fun kk => j.isPrefixOf kk)) = [] := by
              rw [List.eq_nil_iff_forall_not_mem]
              intro q2 hq2
              rw [matched_mem_iff, backcheck_fst] at hq2
              obtain ⟨hq2s, j, hj, hjp⟩ := hq2
              exact hnopref q2 (by rw [hstack]; exact hq2s) j (by simpa [get_ranges] using hj) hjp
            rw [hmatched] at hra
            simp only [removeAll, Option.some_inj] at hra
            subst hra
            have hfix : (agg_step dirs cocl tup (p :: t₀)).map Prod.fst = some (p :: t₀) := by
              rw [hstep]
              rfl
            have hnotdone := aggregator_stack_fixed dirs cocl tup (p :: t₀)
              (List.cons_ne_nil p t₀) hfix fuel
              (applyEffect s (p :: t₀) (.toReport k bdl)) rfl
            rw [hrun] at hnotdone
            exact absurd hnotdone (by simp [AggResult.isDone])
          · obtain ⟨hnd', hnotmem⟩ := removeAll_nodup_notmem hra hnd
            have hsub := removeAll_mem_of_mem hra
            have hmul := removeAll_multiset hra
            have hdins : dictInsert k bdl s.report = s.report ++ [(k, bdl)] := by
              unfold dictInsert
              rw [if_neg hkey]
            refine ih _ t ?_ hrun
            refine ⟨hnd', ?_, ?_⟩
            · show (st' : Multiset Str) + ↑s.missing + reportPages (dictInsert k bdl s.report) =
                (stack₀ : Multiset Str)
              rw [hdins]
              have hrp : reportPages (s.report ++ [(k, bdl)]) =
                  reportPages s.report + ↑bdl.pdfs := by
                unfold reportPages
                simp
              rw [hrp]
              have hpdfs : (bdl.pdfs : Multiset Str) = ↑((backcheck i (p :: t₀)).1.flatMap
                  (fun j => (p :: t₀).filter (fun kk => j.isPrefixOf kk))) := by
                rw [hbdl]
                exact Multiset.coe_eq_coe.mpr (List.perm_insertionSort strLe _)
              rw [hpdfs, ← hconsv, hstack, hmul]
              abel
            · intro kv hkv
              simp only [applyEffect] at hkv
              rw [hdins] at hkv
              rcases List.mem_append.mp hkv with hold | hnew
              · obtain ⟨i2, hi2, hki2, hpref⟩ := hentries kv hold
                exact ⟨i2, hi2, hki2,
                  fun q2 hq2 j hj => hpref q2 (by rw [hstack]; exact hsub q2 hq2) j hj⟩
              · have hkveq : kv = (k, bdl) := by simpa using hnew
                subst hkveq
                refine ⟨i, hmem, hk, ?_⟩
                intro q2 hq2 j hj hjp
                have hq2m : q2 ∈ (backcheck i (p :: t₀)).1.flatMap
                    (fun jj => (p :: t₀).filter (fun kk => jj.isPrefixOf kk)) := by
                  rw [matched_mem_iff, backcheck_fst]
                  exact ⟨hsub q2 hq2, j, by simpa [get_ranges] using hj, hjp⟩
                exact (hnotmem q2 hq2m) hq2

theorem reportPages_eq_flatMap (d : ReportDict) :
    reportPages d = ((d.flatMap (fun kv => kv.2.pdfs) : List Str) : Multiset Str) := by
  induction d with
  | nil => rfl
  | cons kv d ih =>
    unfold reportPages at *
    simp only [List.map_cons, List.sum_cons, List.flatMap_cons]
    rw [ih]
    rfl

/-- C2 (confirmed): for every completing run of `aggregator` on a
duplicate-free initial page stack with a `name_check`-validated CoC list,
the pages of all emitted bundles together with the unresolved list form
exactly the original page set, each page exactly once: none is assigned to
two bundles, twice to one bundle, or both assigned and unresolved, and none
disappears.  (Runs that never return — see `aggregator_rerun_diverges` — or
abort in `pdf_stack.remove` produce no output and are not runs of the
claim.) -/
theorem aggregator_conservation
    (dirs : Dirs) (cocl : List Str) (tup : CocTuple) (stack₀ : List Str) (fuel : Nat)
    (t : AggState)
    (hcoc : ∀ i ∈ cocl, (parseCoc i).isSome)
    (hnd : stack₀.Nodup)
    (hrun : aggregator dirs cocl tup fuel ⟨[], stack₀, []⟩ = .done t) :
    (t.missing ++ t.report.flatMap (fun kv => kv.2.pdfs)).Perm stack₀ ∧ t.stack = [] := by
  have hinv₀ : AggInv cocl stack₀ ⟨[], stack₀, []⟩ := by
    refine ⟨hnd, ?_, ?_⟩
    · show (stack₀ : Multiset Str) + ↑([] : List Str) + reportPages [] = ↑stack₀
      simp [reportPages]
    · intro kv hkv
      exact absurd hkv (by simp)
  obtain ⟨⟨_, hconsv, _⟩, hstk⟩ :=
    aggregator_invariant dirs cocl tup stack₀ hcoc fuel _ t hinv₀ hrun
  rw [hstk] at hconsv
  refine ⟨?_, hstk⟩
  apply Multiset.coe_eq_coe.mp
  have hsplit : ((t.missing ++ t.report.flatMap (fun kv => kv.2.pdfs) : List Str) :
      Multiset Str) = ↑t.missing + reportPages t.report := by
    rw [reportPages_eq_flatMap]
    rfl
  rw [hsplit, ← hconsv]
  simp

/-- Witness for `aggregator_conservation`: the complete run on CoC list
`['123456coc.pdf']` and stack `['123456pg1.pdf']`. -/
theorem aggregator_conservation_witness :
    ((([] : List Str) ++
      (([(['1', '2', '3', '4', '5', '6', '.', 'p', 'd', 'f'],
          Bundle.mk coc_single6 [pg_123456] none)] : ReportDict).flatMap
        (fun kv => kv.2.pdfs))).Perm [pg_123456]) ∧ ([] : List Str) = [] :=
  aggregator_conservation dirs0 [coc_single6] tup0 [pg_123456] 2
    ⟨[], [], [(['1', '2', '3', '4', '5', '6', '.', 'p', 'd', 'f'],
      Bundle.mk coc_single6 [pg_123456] none)]⟩
    (by decide) (by decide) (by decide)

/-! ### The report dictionary across runs: the `report_dict={}` default -/

theorem seqApply_cons (d : ReportDict) (kv : Str × Bundle) (σ : List (Str × Bundle)) :
    seqApply d (kv :: σ) = seqApply (dictInsert kv.1 kv.2 d) σ := rfl

theorem keys_map_update (d : ReportDict) (k : Str) (v : Bundle) :
    (d.map (fun p => if p.1 = k then (k, v) else p)).map Prod.fst = d.map Prod.fst := by
  induction d with
  | nil => rfl
  | cons p d ih =>
    simp only [List.map_cons, ih]
    by_cases h : p.1 = k
    · simp [h]
    · simp [h]

theorem keys_dictInsert (k : Str) (v : Bundle) (d : ReportDict) :
    (dictInsert k v d).map Prod.fst =
      if k ∈ d.map Prod.fst then d.map Prod.fst else d.map Prod.fst ++ [k] := by
  unfold dictInsert
  by_cases h : k ∈ d.map Prod.fst
  · rw [if_pos h, if_pos h, keys_map_update]
  · rw [if_neg h, if_neg h]
    simp

theorem mem_keys_dictInsert_self (k : Str) (v : Bundle) (d : ReportDict) :
    k ∈ (dictInsert k v d).map Prod.fst := by
  rw [keys_dictInsert]
  by_cases h : k ∈ d.map Prod.fst
  · rw [if_pos h]; exact h
  · rw [if_neg h]; exact List.mem_append_right _ (List.mem_singleton_self k)

theorem mem_keys_dictInsert_of_mem {d : ReportDict} {q : Str} (hq : q ∈ d.map Prod.fst)
    (k : Str) (v : Bundle) : q ∈ (dictInsert k v d).map Prod.fst := by
  rw [keys_dictInsert]
  by_cases h : k ∈ d.map Prod.fst
  · rw [if_pos h]; exact hq
  · rw [if_neg h]; exact List.mem_append_left _ hq

theorem mem_keys_seqApply_of_mem {q : Str} :
    ∀ (σ : List (Str × Bundle)) {d : ReportDict}, q ∈ d.map Prod.fst →
    q ∈ (seqApply d σ).map Prod.fst := by
  intro σ
  induction σ with
  | nil => exact fun hq => hq
  | cons kv σ ih => exact fun hq => ih (mem_keys_dictInsert_of_mem hq _ _)

theorem mem_keys_seqApply {kv : Str × Bundle} :
    ∀ {σ : List (Str × Bundle)}, kv ∈ σ → ∀ d : ReportDict,
    kv.1 ∈ (seqApply d σ).map Prod.fst := by
  intro σ
  induction σ with
  | nil => intro h; cases h
  | cons kw σ ih =>
    intro h d
    rcases List.mem_cons.mp h with h | h
    · subst h
      exact mem_keys_seqApply_of_mem σ (mem_keys_dictInsert_self _ _ _)
    · exact ih h _

theorem keys_seqApply_of_subset :
    ∀ (σ : List (Str × Bundle)) (d : ReportDict), (∀ kv ∈ σ, kv.1 ∈ d.map Prod.fst) →
    (seqApply d σ).map Prod.fst = d.map Prod.fst := by
  intro σ
  induction σ with
  | nil => intro d _; rfl
  | cons kv σ ih =>
    intro d h
    have hk : kv.1 ∈ d.map Prod.fst := h kv (List.mem_cons_self _ _)
    have hkeys : (dictInsert kv.1 kv.2 d).map Prod.fst = d.map Prod.fst := by
      rw [keys_dictInsert, if_pos hk]
    rw [seqApply_cons, ih _ (fun kw hw => by
      rw [hkeys]; exact h kw (List.mem_cons_of_mem _ hw)), hkeys]

theorem nodup_keys_dictInsert {d : ReportDict} (h : (d.map Prod.fst).Nodup)
    (k : Str) (v : Bundle) : ((dictInsert k v d).map Prod.fst).Nodup := by
  rw [keys_dictInsert]
  by_cases hk : k ∈ d.map Prod.fst
  · rw [if_pos hk]; exact h
  · rw [if_neg hk]
    exact h.append (List.nodup_singleton k)
      (fun a ha hb => hk (by rwa [List.mem_singleton.mp hb] at ha))

theorem nodup_keys_seqApply :
    ∀ (σ : List (Str × Bundle)) (d : ReportDict), (d.map Prod.fst).Nodup →
    ((seqApply d σ).map Prod.fst).Nodup := by
  intro σ
  induction σ with
  | nil => exact fun d h => h
  | cons kv σ ih => exact fun d h => ih _ (nodup_keys_dictInsert h _ _)

theorem dictFind_map_update_ne {k k' : Str} (h : k' ≠ k) (v : Bundle) :
    ∀ d : ReportDict,
    dictFind k' (d.map (fun p => if p.1 = k then (k, v) else p)) = dictFind k' d := by
  intro d
  induction d with
  | nil => rfl
  | cons p d ih =>
    simp only [List.map_cons]
    by_cases hp : p.1 = k
    · rw [if_pos hp]
      simp only [dictFind]
      rw [if_neg (show ¬((k, v).1 = k') from fun hh => h (by simpa using hh.symm)),
        if_neg (show ¬(p.1 = k') from by rw [hp]; exact fun hh => h hh.symm), ih]
    · rw [if_neg hp]
      simp only [dictFind, ih]

theorem dictFind_map_update_self {k : Str} (v : Bundle) :
    ∀ {d : ReportDict}, k ∈ d.map Prod.fst →
    dictFind k (d.map (fun p => if p.1 = k then (k, v) else p)) = some v := by
  intro d
  induction d with
  | nil => intro h; exact absurd h (by simp)
  | cons p d ih =>
    intro h
    by_cases hp : p.1 = k
    · rw [List.map_cons, if_pos hp]
      simp [dictFind]
    · have hmem : k ∈ d.map Prod.fst := by
        simp only [List.map_cons, List.mem_cons] at h
        rcases h with h1 | h1
        · exact absurd h1.symm hp
        · exact h1
      rw [List.map_cons, if_neg hp]
      simp only [dictFind, if_neg hp]
      exact ih hmem

theorem dictFind_append_self {k : Str} (v : Bundle) :
    ∀ {d : ReportDict}, k ∉ d.map Prod.fst → dictFind k (d ++ [(k, v)]) = some v := by
  intro d
  induction d with
  | nil => intro _; simp [dictFind]
  | cons p d ih =>
    intro h
    simp only [List.map_cons, List.mem_cons] at h
    push_neg at h
    simp only [List.cons_append, dictFind, if_neg (fun hh : p.1 = k => h.1 hh.symm)]
    exact ih h.2

theorem dictFind_append_ne {k k' : Str} (h : k' ≠ k) (v : Bundle) :
    ∀ d : ReportDict, dictFind k' (d ++ [(k, v)]) = dictFind k' d := by
  intro d
  induction d with
  | nil =>
    simp only [List.nil_append, dictFind]
    rw [if_neg (show ¬((k, v).1 = k') from fun hh => h (by simpa using hh.symm))]
  | cons p d ih =>
    simp only [List.cons_append, dictFind]
    by_cases hp : p.1 = k'
    · rw [if_pos hp, if_pos hp]
    · rw [if_neg hp, if_neg hp]
      exact ih

theorem dictFind_dictInsert (k k' : Str) (v : Bundle) (d : ReportDict) :
    dictFind k' (dictInsert k v d) = if k' = k then some v else dictFind k' d := by
  unfold dictInsert
  by_cases hm : k ∈ d.map Prod.fst
  · rw [if_pos hm]
    by_cases hk : k' = k
    · subst hk; rw [if_pos rfl]; exact dictFind_map_update_self v hm
    · rw [if_neg hk]; exact dictFind_map_update_ne hk v d
  · rw [if_neg hm]
    by_cases hk : k' = k
    · subst hk; rw [if_pos rfl]; exact dictFind_append_self v hm
    · rw [if_neg hk]; exact dictFind_append_ne hk v d

theorem dictFind_seqApply_none {k : Str} :
    ∀ {σ : List (Str × Bundle)}, lastVal k σ = none →
    ∀ d : ReportDict, dictFind k (seqApply d σ) = dictFind k d := by
  intro σ
  induction σ with
  | nil => intro _ d; rfl
  | cons kv σ ih =>
    intro h d
    simp only [lastVal] at h
    cases hlv : lastVal k σ with
    | some v => rw [hlv] at h; cases h
    | none =>
      rw [hlv] at h
      simp only at h
      have hne : kv.1 ≠ k := by
        intro hh
        rw [if_pos hh] at h
        cases h
      rw [seqApply_cons, ih hlv, dictFind_dictInsert,
        if_neg (fun hh : k = kv.1 => hne hh.symm)]

theorem dictFind_seqApply_some {k : Str} {v : Bundle} :
    ∀ {σ : List (Str × Bundle)}, lastVal k σ = some v →
    ∀ d : ReportDict, dictFind k (seqApply d σ) = some v := by
  intro σ
  induction σ with
  | nil => intro h; cases h
  | cons kv σ ih =>
    intro h d
    simp only [lastVal] at h
    cases hlv : lastVal k σ with
    | some w =>
      rw [hlv] at h
      simp only at h
      cases h
      exact ih hlv _
    | none =>
      rw [hlv] at h
      simp only at h
      have hkk : kv.1 = k ∧ some kv.2 = some v := by
        by_cases hh : kv.1 = k
        · rw [if_pos hh] at h; exact ⟨hh, h⟩
        · rw [if_neg hh] at h; cases h
      rw [seqApply_cons, dictFind_seqApply_none hlv, dictFind_dictInsert,
        if_pos hkk.1.symm]
      exact hkk.2

theorem dictFind_eq_none_of_not_mem :
    ∀ {d : ReportDict} {k : Str}, k ∉ d.map Prod.fst → dictFind k d = none := by
  intro d
  induction d with
  | nil => intro k _; rfl
  | cons p d ih =>
    intro k h
    simp only [List.map_cons, List.mem_cons] at h
    push_neg at h
    simp only [dictFind, if_neg (fun hh : p.1 = k => h.1 hh.symm)]
    exact ih h.2

theorem dict_ext :
    ∀ {d₁ d₂ : ReportDict}, (d₁.map Prod.fst).Nodup →
    d₁.map Prod.fst = d₂.map Prod.fst →
    (∀ k, dictFind k d₁ = dictFind k d₂) → d₁ = d₂ := by
  intro d₁
  induction d₁ with
  | nil =>
    intro d₂ _ hk _
    cases d₂ with
    | nil => rfl
    | cons q d₂ => cases hk
  | cons p d ih =>
    intro d₂ hnd hk hv
    cases d₂ with
    | nil => cases hk
    | cons q d₂ =>
      simp only [List.map_cons, List.cons.injEq] at hk
      have hv1 := hv p.1
      simp only [dictFind, if_pos rfl] at hv1
      rw [if_pos hk.1.symm] at hv1
      have hpq : p = q := Prod.ext hk.1 (Option.some.inj hv1)
      have hnotme : p.1 ∉ d.map Prod.fst := by
        simp only [List.map_cons, List.nodup_cons] at hnd
        exact hnd.1
      have htail : d = d₂ := by
        refine ih ?_ hk.2 ?_
        · simp only [List.map_cons, List.nodup_cons] at hnd
          exact hnd.2
        · intro k
          by_cases hkp : k = p.1
          · subst hkp
            rw [dictFind_eq_none_of_not_mem hnotme,
              dictFind_eq_none_of_not_mem (hk.2 ▸ hnotme)]
          · have hvk := hv k
            simp only [dictFind] at hvk
            rw [if_neg (fun hh : p.1 = k => hkp hh.symm),
              if_neg (fun hh : q.1 = k => hkp (by rw [← hh, ← hk.1]))] at hvk
            exact hvk
      rw [hpq, htail]

theorem seqApply_idem (σ : List (Str × Bundle)) :
    seqApply (seqApply [] σ) σ = seqApply [] σ := by
  have hsub : ∀ kv ∈ σ, kv.1 ∈ (seqApply ([] : ReportDict) σ).map Prod.fst :=
    fun kv h => mem_keys_seqApply h []
  have hkeys := keys_seqApply_of_subset σ (seqApply [] σ) hsub
  have hnd : ((seqApply (seqApply [] σ) σ).map Prod.fst).Nodup := by
    rw [hkeys]
    exact nodup_keys_seqApply σ [] (by simp)
  refine dict_ext hnd hkeys ?_
  intro k
  cases hlv : lastVal k σ with
  | some v => rw [dictFind_seqApply_some hlv, dictFind_seqApply_some hlv]
  | none => rw [dictFind_seqApply_none hlv]

theorem aggregator_trace (dirs : Dirs) (cocl : List Str) (tup : CocTuple) :
    ∀ (fuel : Nat) (m st : List Str) (d : ReportDict) (t : AggState),
    aggregator dirs cocl tup fuel ⟨m, st, d⟩ = .done t →
    ∃ σ : List (Str × Bundle), t.report = seqApply d σ ∧
      ∀ d' : ReportDict, aggregator dirs cocl tup fuel ⟨m, st, d'⟩ =
        .done ⟨t.missing, t.stack, seqApply d' σ⟩ := by
  intro fuel
  induction fuel with
  | zero =>
    intro m st d t hrun
    simp only [aggregator] at hrun
    split at hrun
    · cases hrun
      next hst =>
        refine ⟨[], rfl, fun d' => ?_⟩
        simp only [aggregator]
        rw [if_pos hst]
        rfl
    · cases hrun
  | succ fuel ih =>
    intro m st d t hrun
    simp only [aggregator] at hrun
    split at hrun
    · cases hrun
      next hst =>
        refine ⟨[], rfl, fun d' => ?_⟩
        simp only [aggregator]
        rw [if_pos hst]
        rfl
    · next hst =>
      cases hstep : agg_step dirs cocl tup st with
      | none =>
        rw [hstep] at hrun
        simp only at hrun
        cases hrun
      | some pr =>
        obtain ⟨st', eff⟩ := pr
        rw [hstep] at hrun
        simp only at hrun
        cases eff with
        | toMissing p =>
          simp only [applyEffect] at hrun
          obtain ⟨σ, hrep, hall⟩ := ih (m ++ [p]) st' d t hrun
          refine ⟨σ, hrep, fun d' => ?_⟩
          simp only [aggregator]
          rw [if_neg hst, hstep]
          simp only [applyEffect]
          exact hall d'
        | toReport k b =>
          simp only [applyEffect] at hrun
          obtain ⟨σ, hrep, hall⟩ := ih m st' (dictInsert k b d) t hrun
          refine ⟨(k, b) :: σ, by rw [seqApply_cons]; exact hrep, fun d' => ?_⟩
          simp only [aggregator]
          rw [if_neg hst, hstep]
          simp only [applyEffect]
          rw [seqApply_cons]
          exact hall (dictInsert k b d')

/-- C8 (confirmed): the reconciliation is a pure function of its frozen
inputs, and no state leaks between invocations through the `report_dict={}`
accumulator.  The default argument IS shared across calls in Python (the
second plain call starts from the first run's final dictionary), but the
theorem shows the leak is unobservable on identical inputs: a second run on
the same CoC list, collection sets and a fresh copy of the same page stack,
started from the first run's final `report_dict`, returns the very same
final state — identical unresolved list and identical (order included)
report dictionary.  A fresh-dictionary second run is the function applied to
the same arguments, hence trivially identical as well. -/
theorem aggregator_idempotent (dirs : Dirs) (cocl : List Str) (tup : CocTuple)
    (st₀ : List Str) (fuel : Nat) (t : AggState)
    (hrun : aggregator dirs cocl tup fuel ⟨[], st₀, []⟩ = .done t) :
    aggregator dirs cocl tup fuel ⟨[], st₀, t.report⟩ = .done t := by
  obtain ⟨σ, hrep, hall⟩ := aggregator_trace dirs cocl tup fuel [] st₀ [] t hrun
  have h2 := hall t.report
  have hkey : seqApply t.report σ = t.report := by
    rw [hrep]
    exact seqApply_idem σ
  rw [hkey] at h2
  exact h2

/-- Witness for `aggregator_idempotent`: replaying the run of
`aggregator_conservation_witness` from its own final report dictionary. -/
theorem aggregator_idempotent_witness :
    aggregator dirs0 [coc_single6] tup0 2
      ⟨[], [pg_123456],
        [(['1', '2', '3', '4', '5', '6', '.', 'p', 'd', 'f'],
          Bundle.mk coc_single6 [pg_123456] none)]⟩ =
      .done ⟨[], [],
        [(['1', '2', '3', '4', '5', '6', '.', 'p', 'd', 'f'],
          Bundle.mk coc_single6 [pg_123456] none)]⟩ :=
  aggregator_idempotent dirs0 [coc_single6] tup0 [pg_123456] 2
    ⟨[], [],
      [(['1', '2', '3', '4', '5', '6', '.', 'p', 'd', 'f'],
        Bundle.mk coc_single6 [pg_123456] none)]⟩
    (by decide)
